import Mathlib

/-!
Verification development for the contour-rs marching-squares library
(`src/contour.rs`, `src/lib.rs`).

The embedding follows the Rust source closely:

* points (`Vec<f64>` of length 2) are pairs of rationals — every coordinate the
  sweep manipulates is a small half-integer, on which `f64` arithmetic is exact,
  so `ℚ` is a faithful model of the coordinate arithmetic;
* the two `FxHashMap<usize, usize>` endpoint maps and the `Slab<Fragment>` are
  modelled as association lists with insert-overwrite / remove-all semantics and
  a fresh-key counter (`Slab::insert` returns an unused key; which unused key is
  chosen is invisible to the algorithm, which only stores keys in the two maps);
* fallible operations return `Except ErrKind`; a Rust panic (out-of-bounds slice
  indexing, `Slab::remove` on a vacant slot) is the `outOfBounds` error, while
  `badDimension` and `unexpected` model the `ErrorKind` values of the missing
  `src/error.rs` that `src/contour.rs` constructs.
-/

namespace ContourRs

/-- Rust `type Pt = Vec<f64>` — always a 2-element point. -/
abbrev Pt : Type := ℚ × ℚ

/-- Rust `type Ring = Vec<Pt>`. -/
abbrev Ring : Type := List Pt

/-- Rust `struct Fragment { start: usize, end: usize, ring: Ring }`.
`end` is a Lean keyword, so the field is called `stop`. -/
structure Fragment where
  start : ℕ
  stop : ℕ
  ring : Ring
deriving Repr, DecidableEq

/-- The error kinds observable from `src/contour.rs`: `BadDimension` and
`Unexpected` come from the (absent) `src/error.rs`; `outOfBounds` is the
embedding of a Rust panic caused by out-of-range indexing. -/
inductive ErrKind where
  | badDimension
  | unexpected
  | outOfBounds
deriving Repr, DecidableEq

instance {ε α : Type} [DecidableEq ε] [DecidableEq α] : DecidableEq (Except ε α) := fun x y =>
  match x, y with
  | .ok a, .ok b =>
    if h : a = b then isTrue (by rw [h]) else isFalse (by intro hh; cases hh; exact h rfl)
  | .error e, .error e2 =>
    if h : e = e2 then isTrue (by rw [h]) else isFalse (by intro hh; cases hh; exact h rfl)
  | .ok _, .error _ => isFalse (by intro hh; cases hh)
  | .error _, .ok _ => isFalse (by intro hh; cases hh)

/-- Lookup in the association-list model of a hash map / slab. -/
def alistFind {α : Type} : List (ℕ × α) → ℕ → Option α
  | [], _ => none
  | e :: t, k => if e.1 = k then some e.2 else alistFind t k

/-- Removal of a key (all occurrences, matching hash-map semantics). -/
def alistRemove {α : Type} : List (ℕ × α) → ℕ → List (ℕ × α)
  | [], _ => []
  | e :: t, k => if e.1 = k then alistRemove t k else e :: alistRemove t k

/-- Insert-overwrite of a key, matching hash-map semantics. -/
def alistInsert {α : Type} (m : List (ℕ × α)) (k : ℕ) (v : α) : List (ℕ × α) :=
  (k, v) :: alistRemove m k

/-- The 16-entry marching-squares case table (`CASES`, src/contour.rs lines 14-39).
Each entry is a list of directed segments, a segment being a pair of points. -/
def CASES : List (List (Pt × Pt)) :=
  [ [],
    [((1, 3/2), (1/2, 1))],
    [((3/2, 1), (1, 3/2))],
    [((3/2, 1), (1/2, 1))],
    [((1, 1/2), (3/2, 1))],
    [((1, 3/2), (1/2, 1)), ((1, 1/2), (3/2, 1))],
    [((1, 1/2), (1, 3/2))],
    [((1, 1/2), (1/2, 1))],
    [((1/2, 1), (1, 1/2))],
    [((1, 3/2), (1, 1/2))],
    [((1/2, 1), (1, 1/2)), ((3/2, 1), (1, 3/2))],
    [((3/2, 1), (1, 1/2))],
    [((1/2, 1), (3/2, 1))],
    [((1, 3/2), (3/2, 1))],
    [((1/2, 1), (1, 3/2))],
    [] ]

/-- Rust `f64::trunc` (rounding toward zero). -/
def fTrunc (q : ℚ) : ℤ := if q < 0 then -(⌊-q⌋) else ⌊q⌋

/-- Rust `as usize` / `as u32` cast of a float: truncate toward zero and
saturate below at 0 (the huge upper saturation bound is irrelevant here). -/
def asUsize (q : ℚ) : ℕ := (fTrunc q).toNat

/-- `IsoRingBuilder::index` (src/contour.rs lines 287-289):
`(point[0] * 2.0 + point[1] * (self.dx as f64 + 1.) * 4.) as usize`. -/
def indexKey (dx : ℕ) (p : Pt) : ℕ :=
  asUsize (p.1 * 2 + p.2 * ((dx : ℚ) + 1) * 4)

/-- The absolute-coordinate translation performed at the top of `stitch`:
`vec![line[i][0] + x as f64, line[i][1] + y as f64]`. -/
def translate (p : Pt) (x y : ℤ) : Pt := (p.1 + (x : ℚ), p.2 + (y : ℚ))

/-- Rust `struct IsoRingBuilder` (src/contour.rs lines 180-187). -/
structure IsoRingBuilder where
  fragment_by_start : List (ℕ × ℕ)
  fragment_by_end : List (ℕ × ℕ)
  f : List (ℕ × Fragment)
  /-- next fresh slab key (models `Slab`'s unused-key guarantee) -/
  next : ℕ
  dx : ℕ
  dy : ℕ
  is_empty : Bool
deriving Repr, DecidableEq

/-- `IsoRingBuilder::new` (src/contour.rs lines 195-204). -/
def IsoRingBuilder.new (dx dy : ℕ) : IsoRingBuilder :=
  { fragment_by_start := [], fragment_by_end := [], f := [], next := 0,
    dx := dx, dy := dy, is_empty := true }

/-- `IsoRingBuilder::clear` (src/contour.rs lines 363-368). -/
def clear (b : IsoRingBuilder) : IsoRingBuilder :=
  { b with
    f := [], fragment_by_end := [], fragment_by_start := [], next := 0,
    is_empty := true }

/-- `IsoRingBuilder::stitch` (src/contour.rs lines 292-361).
The nested `contains_key`/`remove(..).ok_or(..)` pairs of the source read the
same map twice; the model reads once and matches.  `Slab::remove` panics on a
vacant slot (`outOfBounds`); `Slab::get_mut(..).ok_or(..)` yields `unexpected`
exactly as in the source. -/
def stitch (line : Pt × Pt) (x y : ℤ) (b : IsoRingBuilder) (result : List Ring) :
    Except ErrKind (IsoRingBuilder × List Ring) :=
  let start := translate line.1 x y
  let endp := translate line.2 x y
  let start_index := indexKey b.dx start
  let end_index := indexKey b.dx endp
  match alistFind b.fragment_by_end start_index with
  | some f_ix =>
    (match alistFind b.fragment_by_start end_index with
    | some g_ix =>
      -- both lookups hit: the two keys are removed first (lines 299-300)
      if f_ix = g_ix then
        match alistFind b.f f_ix with
        | none => .error .outOfBounds
        | some f =>
          .ok ({ b with
                  fragment_by_end := alistRemove b.fragment_by_end start_index,
                  fragment_by_start := alistRemove b.fragment_by_start end_index,
                  f := alistRemove b.f f_ix },
               result ++ [f.ring ++ [endp]])
      else
        match alistFind b.f f_ix with
        | none => .error .outOfBounds
        | some f =>
          match alistFind (alistRemove b.f f_ix) g_ix with
          | none => .error .outOfBounds
          | some g =>
            .ok ({ b with
                    fragment_by_end :=
                      alistInsert (alistRemove b.fragment_by_end start_index) g.stop b.next,
                    fragment_by_start :=
                      alistInsert (alistRemove b.fragment_by_start end_index) f.start b.next,
                    f := alistInsert (alistRemove (alistRemove b.f f_ix) g_ix) b.next
                          ⟨f.start, g.stop, f.ring ++ g.ring⟩,
                    next := b.next + 1 },
                 result)
    | none =>
      -- only the end-map hit: extend forward (lines 317-323)
      match alistFind b.f f_ix with
      | none => .error .unexpected
      | some f =>
        .ok ({ b with
                fragment_by_end :=
                  alistInsert (alistRemove b.fragment_by_end start_index) end_index f_ix,
                f := alistInsert b.f f_ix ⟨f.start, end_index, f.ring ++ [endp]⟩ },
             result))
  | none =>
    match alistFind b.fragment_by_start end_index with
    | some f_ix =>
      (match alistFind b.fragment_by_end start_index with
      | some g_ix =>
        -- mirrored close/merge (lines 325-343); unreachable, kept for fidelity
        if f_ix = g_ix then
          match alistFind b.f f_ix with
          | none => .error .outOfBounds
          | some f =>
            .ok ({ b with
                    fragment_by_start := alistRemove b.fragment_by_start end_index,
                    fragment_by_end := alistRemove b.fragment_by_end start_index,
                    f := alistRemove b.f f_ix },
                 result ++ [f.ring ++ [endp]])
        else
          match alistFind b.f f_ix with
          | none => .error .outOfBounds
          | some f =>
            match alistFind (alistRemove b.f f_ix) g_ix with
            | none => .error .outOfBounds
            | some g =>
              .ok ({ b with
                      fragment_by_start :=
                        alistInsert (alistRemove b.fragment_by_start end_index) g.start b.next,
                      fragment_by_end :=
                        alistInsert (alistRemove b.fragment_by_end start_index) f.stop b.next,
                      f := alistInsert (alistRemove (alistRemove b.f f_ix) g_ix) b.next
                            ⟨g.start, f.stop, g.ring ++ f.ring⟩,
                      next := b.next + 1 },
                   result)
      | none =>
        -- only the start-map hit: extend backward (lines 344-350)
        match alistFind b.f f_ix with
        | none => .error .unexpected
        | some f =>
          .ok ({ b with
                  fragment_by_start :=
                    alistInsert (alistRemove b.fragment_by_start end_index) start_index f_ix,
                  f := alistInsert b.f f_ix ⟨start_index, f.stop, start :: f.ring⟩ },
               result))
    | none =>
      -- neither endpoint known: open a new fragment (lines 351-359)
      .ok ({ b with
              f := alistInsert b.f b.next ⟨start_index, end_index, [start, endp]⟩,
              fragment_by_start := alistInsert b.fragment_by_start start_index b.next,
              fragment_by_end := alistInsert b.fragment_by_end end_index b.next,
              next := b.next + 1 },
           result)

/-- Indexed read of the sample slice; out-of-range is a Rust panic. -/
def getV (values : List ℚ) (i : ℕ) : Except ErrKind ℚ :=
  match values.get? i with
  | some v => .ok v
  | none => .error .outOfBounds

/-- The `case_stitch!` macro (src/contour.rs lines 215-224): stitch every
segment of the selected case-table entry. -/
def caseStitch (code : ℕ) (x y : ℤ) (acc : IsoRingBuilder × List Ring) :
    Except ErrKind (IsoRingBuilder × List Ring) :=
  (CASES.getD code []).foldlM (fun a seg => stitch seg x y a.1 a.2) acc

/-- Body of the first special row's inner loop (src/contour.rs lines 243-248):
rolls `t0 := t1`, reads `values[x + 1]`, stitches the cell at `(x, -1)`. -/
def firstRowStep (values : List ℚ) (threshold : ℚ)
    (st : Bool × IsoRingBuilder × List Ring) (x : ℕ) :
    Except ErrKind (Bool × IsoRingBuilder × List Ring) := do
  let t0 := st.1
  let v ← getV values (x + 1)
  let t1 := decide (v ≥ threshold)
  let acc ← caseStitch (t0.toNat ||| t1.toNat <<< 1) (x : ℤ) (-1) st.2
  pure (t1, acc)

/-- Body of an intermediate row's inner loop (src/contour.rs lines 259-266). -/
def midRowStep (values : List ℚ) (threshold : ℚ) (dx y : ℕ)
    (st : Bool × Bool × IsoRingBuilder × List Ring) (x : ℕ) :
    Except ErrKind (Bool × Bool × IsoRingBuilder × List Ring) := do
  let t0 := st.1
  let v ← getV values (y * dx + dx + x + 1)
  let t1 := decide (v ≥ threshold)
  let t3 := st.2.1
  let w ← getV values (y * dx + x + 1)
  let t2 := decide (w ≥ threshold)
  let acc ← caseStitch (t0.toNat ||| t1.toNat <<< 1 ||| t2.toNat <<< 2 ||| t3.toNat <<< 3)
    (x : ℤ) (y : ℤ) st.2.2
  pure (t1, t2, acc)

/-- One intermediate row of the sweep (src/contour.rs lines 253-269). -/
def midRow (values : List ℚ) (threshold : ℚ) (dx : ℕ)
    (acc : IsoRingBuilder × List Ring) (y : ℕ) :
    Except ErrKind (IsoRingBuilder × List Ring) := do
  let v ← getV values (y * dx + dx)
  let t1 := decide (v ≥ threshold)
  let w ← getV values (y * dx)
  let t2 := decide (w ≥ threshold)
  let acc ← caseStitch (t1.toNat <<< 1 ||| t2.toNat <<< 2) (-1) (y : ℤ) acc
  let st ← (List.range (dx - 1)).foldlM (midRowStep values threshold dx y) (t1, t2, acc)
  caseStitch (st.1.toNat ||| st.2.1.toNat <<< 3) ((dx - 1 : ℕ) : ℤ) (y : ℤ) st.2.2

/-- Body of the last special row's inner loop (src/contour.rs lines 276-281):
rolls `t3 := t2`, reads `values[y * dx + x + 1]`, stitches at `(x, dy - 1)`. -/
def lastRowStep (values : List ℚ) (threshold : ℚ) (dx y : ℕ)
    (st : Bool × IsoRingBuilder × List Ring) (x : ℕ) :
    Except ErrKind (Bool × IsoRingBuilder × List Ring) := do
  let t3 := st.1
  let v ← getV values (y * dx + x + 1)
  let t2 := decide (v ≥ threshold)
  let acc ← caseStitch (t2.toNat <<< 2 ||| t3.toNat <<< 3) (x : ℤ) (y : ℤ) st.2
  pure (t2, acc)

/-- `IsoRingBuilder::compute` (src/contour.rs lines 214-285).  The three loop
phases of the source are the three folds.  The source casts the u32 dimensions
to i32 (`let dx = self.dx as i32`, line 230) before using them as loop bounds;
the `List.range` counts `dx - 1` resp. `dy - 1` used here agree with those i32
loops exactly when `dx, dy < 2^31` (including `dx = 0` / `dy = 0`, where both
run zero times), i.e. on every non-wrapping schedule.  `computeI32` below
embeds the cast and the wrapping i32 index arithmetic without this
idealization. -/
def compute (b0 : IsoRingBuilder) (values : List ℚ) (threshold : ℚ) :
    Except ErrKind (IsoRingBuilder × List Ring) := do
  let b := if b0.is_empty = false then clear b0 else b0
  let dx := b.dx
  let dy := b.dy
  -- special case for the first row (y = -1, t2 = t3 = 0)
  let v ← getV values 0
  let t1 := decide (v ≥ threshold)
  let acc ← caseStitch (t1.toNat <<< 1) (-1) (-1) (b, [])
  let fr ← (List.range (dx - 1)).foldlM (firstRowStep values threshold) (t1, acc)
  let acc ← caseStitch fr.1.toNat ((dx - 1 : ℕ) : ℤ) (-1) fr.2
  -- general case for the intermediate rows
  let acc ← (List.range (dy - 1)).foldlM (midRow values threshold dx) acc
  -- special case for the last row (y = dy - 1, t0 = t1 = 0)
  let y := dy - 1
  let v2 ← getV values (y * dx)
  let t2 := decide (v2 ≥ threshold)
  let acc ← caseStitch (t2.toNat <<< 2) (-1) (y : ℤ) acc
  let lr ← (List.range (dx - 1)).foldlM (lastRowStep values threshold dx y) (t2, acc)
  let acc ← caseStitch (lr.1.toNat <<< 3) ((dx - 1 : ℕ) : ℤ) (y : ℤ) lr.2
  pure ({ acc.1 with is_empty := false }, acc.2)

/-- The wrapping `as i32` reinterpretation of a u32/usize quantity
(`let dx = self.dx as i32`, src/contour.rs line 230): reduce mod `2^32` into
the signed window `[-2^31, 2^31)`.  `as` casts are defined-wrapping in both
debug and release Rust. -/
def wrapI32 (z : ℤ) : ℤ := (z + 2 ^ 31) % 2 ^ 32 - 2 ^ 31

/-- `u32 as i32` on a natural number holding a u32 value. -/
def asI32 (n : ℕ) : ℤ := wrapI32 n

/-- `i32 as usize` on a 64-bit target: sign-extend, then reinterpret. -/
def usizeOfI32 (z : ℤ) : ℕ := (z % 2 ^ 64).toNat

/-- Body of the first row's inner loop with the source's i32 index arithmetic
(src/contour.rs lines 244-248): the loop counter `x` is an i32 that stays in
`[0, 2^31)` here, each read is `values[(x + 1) as usize]`. -/
def firstRowStepI32 (values : List ℚ) (threshold : ℚ)
    (st : Bool × IsoRingBuilder × List Ring) (x : ℕ) :
    Except ErrKind (Bool × IsoRingBuilder × List Ring) := do
  let t0 := st.1
  let v ← getV values (usizeOfI32 (wrapI32 ((x : ℤ) + 1)))
  let t1 := decide (v ≥ threshold)
  let acc ← caseStitch (t0.toNat ||| t1.toNat <<< 1) (x : ℤ) (-1) st.2
  pure (t1, acc)

/-- Body of an intermediate row's inner loop with i32 index arithmetic
(src/contour.rs lines 259-266): `y * dx + dx + x + 1` and `y * dx + x + 1`
are computed in wrapping i32 (`dxi` is the wrapped `self.dx as i32`), then
cast `as usize`. -/
def midRowStepI32 (values : List ℚ) (threshold : ℚ) (dxi : ℤ) (y : ℕ)
    (st : Bool × Bool × IsoRingBuilder × List Ring) (x : ℕ) :
    Except ErrKind (Bool × Bool × IsoRingBuilder × List Ring) := do
  let t0 := st.1
  let v ← getV values (usizeOfI32 (wrapI32 ((y : ℤ) * dxi + dxi + (x : ℤ) + 1)))
  let t1 := decide (v ≥ threshold)
  let t3 := st.2.1
  let w ← getV values (usizeOfI32 (wrapI32 ((y : ℤ) * dxi + (x : ℤ) + 1)))
  let t2 := decide (w ≥ threshold)
  let acc ← caseStitch (t0.toNat ||| t1.toNat <<< 1 ||| t2.toNat <<< 2 ||| t3.toNat <<< 3)
    (x : ℤ) (y : ℤ) st.2.2
  pure (t1, t2, acc)

/-- One intermediate row with i32 semantics (src/contour.rs lines 253-269):
`nx` is the trip count and final column `(dxi - 1).toNat` of the inner
`while x < dx - 1` loop. -/
def midRowI32 (values : List ℚ) (threshold : ℚ) (dxi : ℤ) (nx : ℕ)
    (acc : IsoRingBuilder × List Ring) (y : ℕ) :
    Except ErrKind (IsoRingBuilder × List Ring) := do
  let v ← getV values (usizeOfI32 (wrapI32 ((y : ℤ) * dxi + dxi)))
  let t1 := decide (v ≥ threshold)
  let w ← getV values (usizeOfI32 (wrapI32 ((y : ℤ) * dxi)))
  let t2 := decide (w ≥ threshold)
  let acc ← caseStitch (t1.toNat <<< 1 ||| t2.toNat <<< 2) (-1) (y : ℤ) acc
  let st ← (List.range nx).foldlM (midRowStepI32 values threshold dxi y) (t1, t2, acc)
  caseStitch (st.1.toNat ||| st.2.1.toNat <<< 3) (nx : ℤ) (y : ℤ) st.2.2

/-- Body of the last row's inner loop with i32 index arithmetic
(src/contour.rs lines 276-281). -/
def lastRowStepI32 (values : List ℚ) (threshold : ℚ) (dxi : ℤ) (y : ℕ)
    (st : Bool × IsoRingBuilder × List Ring) (x : ℕ) :
    Except ErrKind (Bool × IsoRingBuilder × List Ring) := do
  let t3 := st.1
  let v ← getV values (usizeOfI32 (wrapI32 ((y : ℤ) * dxi + (x : ℤ) + 1)))
  let t2 := decide (v ≥ threshold)
  let acc ← caseStitch (t2.toNat <<< 2 ||| t3.toNat <<< 3) (x : ℤ) (y : ℤ) st.2
  pure (t2, acc)

/-- `IsoRingBuilder::compute` (src/contour.rs lines 214-285) with the
`self.dx as i32` / `self.dy as i32` casts of lines 230-231 modelled exactly:
each `while x < dx - 1` loop starts at `x = 0` and so runs `(dxi - 1).toNat`
times, leaving the counter — which is also the column of the final stitch of
the row — at `(dxi - 1).toNat`; likewise for the row loop.  For `dx ≥ 2^31`
the wrapped `dxi` is negative, the loops collapse and the final stitches stay
at column 0, so the program sweeps a 1-wide schedule over a grid it believes
to be `dx` wide.  Index arithmetic is wrapping i32 then `as usize`
(sign-extension), as in the source. -/
def computeI32 (b0 : IsoRingBuilder) (values : List ℚ) (threshold : ℚ) :
    Except ErrKind (IsoRingBuilder × List Ring) := do
  let b := if b0.is_empty = false then clear b0 else b0
  let dxi := asI32 b.dx
  let dyi := asI32 b.dy
  let nx := (dxi - 1).toNat
  let ny := (dyi - 1).toNat
  -- special case for the first row (y = -1, t2 = t3 = 0)
  let v ← getV values 0
  let t1 := decide (v ≥ threshold)
  let acc ← caseStitch (t1.toNat <<< 1) (-1) (-1) (b, [])
  let fr ← (List.range nx).foldlM (firstRowStepI32 values threshold) (t1, acc)
  let acc ← caseStitch fr.1.toNat (nx : ℤ) (-1) fr.2
  -- general case for the intermediate rows
  let acc ← (List.range ny).foldlM (midRowI32 values threshold dxi nx) acc
  -- special case for the last row (y = dy - 1, t0 = t1 = 0)
  let v2 ← getV values (usizeOfI32 (wrapI32 ((ny : ℤ) * dxi)))
  let t2 := decide (v2 ≥ threshold)
  let acc ← caseStitch (t2.toNat <<< 2) (-1) (ny : ℤ) acc
  let lr ← (List.range nx).foldlM (lastRowStepI32 values threshold dxi ny) (t2, acc)
  let acc ← caseStitch (lr.1.toNat <<< 3) (nx : ℤ) (ny : ℤ) lr.2
  pure ({ acc.1 with is_empty := false }, acc.2)

/-- `contour_rings` (src/contour.rs lines 174-177): build a fresh
`IsoRingBuilder` and run one sweep — note the absence of any dimension check. -/
def contour_rings (values : List ℚ) (threshold : ℚ) (dx dy : ℕ) :
    Except ErrKind (List Ring) := do
  let r ← compute (IsoRingBuilder.new dx dy) values threshold
  pure r.2

/-- `std::f64::EPSILON`. -/
def EPS : ℚ := 1 / 2 ^ 52

/-- The per-point body of `ContourBuilder::smoooth_linear` (src/contour.rs
lines 76-95).  `x`/`y` are read before either branch writes, `v1` is read once,
and each branch is guarded only by the position tests — there is no guard on
`v1 - v0`.  The `yt * dx + xt - 1` and `(yt - 1) * dx + xt` operands cannot
underflow when their branch is taken (the guards force `xt ≥ 1` resp.
`yt ≥ 1`). -/
def smoothPt (dx dy : ℕ) (values : List ℚ) (value : ℚ) (p : Pt) : Pt :=
  let x := p.1
  let y := p.2
  let xt := asUsize x
  let yt := asUsize y
  let ix := yt * dx + xt
  if ix < values.length then
    let v1 := values.getD ix 0
    let x2 := if 0 < x ∧ x < (dx : ℚ) ∧ |(xt : ℚ) - x| < EPS then
        x + (value - values.getD (yt * dx + xt - 1) 0) / (v1 - values.getD (yt * dx + xt - 1) 0)
          - 1/2
      else x
    let y2 := if 0 < y ∧ y < (dy : ℚ) ∧ |(yt : ℚ) - y| < EPS then
        y + (value - values.getD ((yt - 1) * dx + xt) 0) / (v1 - values.getD ((yt - 1) * dx + xt) 0)
          - 1/2
      else y
    (x2, y2)
  else p

/-- `ContourBuilder::smoooth_linear` (src/contour.rs lines 71-97): each ring
point is adjusted independently. -/
def smoooth_linear (dx dy : ℕ) (ring : Ring) (values : List ℚ) (value : ℚ) : Ring :=
  ring.map (smoothPt dx dy values value)

/-- Modelled from the spec: the signed-area primitive `crate::area::area` lives
in `src/area.rs`, which is absent from this tree.  Spec §4.4 step 1: "Computes
the signed area of each returned ring (shoelace formula over Ring's ordered
points)."  The cyclic shoelace sum is taken with the sign convention of the
d3-contour family (positive for the orientation the case table gives outer
rings); only its sign is ever used. -/
def area (ring : Ring) : ℚ :=
  ((ring.zip (ring.rotate 1)).map (fun pq => pq.1.2 * pq.2.1 - pq.1.1 * pq.2.2)).sum

/-- Rust `struct ContourBuilder` (src/contour.rs lines 53-57). -/
structure ContourBuilder where
  dx : ℕ
  dy : ℕ
  smooth : Bool
deriving Repr, DecidableEq

/-- The claim-relevant payload of the geojson `Feature` built at
src/contour.rs lines 148-160: the threshold (stored as the `"value"` property)
and the MultiPolygon, a list of polygons each being outer ring then holes. -/
structure Feature where
  value : ℚ
  polygons : List (List Ring)
deriving Repr, DecidableEq

/-- The hole-attachment loop of `ContourBuilder::contour` (src/contour.rs
lines 136-146): walk the polygons in order; the first whose outer ring
(`polygon[0]`) contains the hole receives it; if none does, the hole is
dropped.  The containment primitive (`crate::area::contains`, absent
`src/area.rs`) is abstract: per the spec's interface, a result of `-1` means
"not contained". -/
def attachHole (containsFn : Ring → Ring → ℤ) (polys : List (List Ring)) (hole : Ring) :
    List (List Ring) :=
  match polys with
  | [] => []
  | poly :: rest =>
    if containsFn (poly.headD []) hole ≠ -1 then (poly ++ [hole]) :: rest
    else poly :: attachHole containsFn rest hole

/-- `ContourBuilder::contour` (src/contour.rs lines 118-161).  The
`containsFn` parameter stands for the absent `crate::area::contains`
(modelled from the spec as an abstract interface).  Serialization of the
threshold into a JSON number cannot fail for a rational, so the
`to_value(threshold)?` step is infallible here. -/
def contour (c : ContourBuilder) (containsFn : Ring → Ring → ℤ) (values : List ℚ)
    (threshold : ℚ) (isoring : IsoRingBuilder) :
    Except ErrKind (Feature × IsoRingBuilder) := do
  let r ← compute isoring values threshold
  let pr := r.2.foldl
    (fun (acc : List (List Ring) × List Ring) ring =>
      let ring := if c.smooth then smoooth_linear c.dx c.dy ring values threshold else ring
      if area ring > 0 then (acc.1 ++ [[ring]], acc.2) else (acc.1, acc.2 ++ [ring]))
    ([], [])
  let polygons := pr.2.foldl (attachHole containsFn) pr.1
  pure ({ value := threshold, polygons := polygons }, r.1)

/-- `ContourBuilder::contours` (src/contour.rs lines 107-116): the dimension
check, then one `contour` per threshold over a single reused
`IsoRingBuilder`.  The check at line 108 is
`values.len() as u32 != self.dx * self.dy`: the length is truncated to u32 and
the product is a u32 multiply, so both sides are reduced mod `2^32` here
(release-mode wrapping; a debug build panics on the overflowing multiply
instead — in neither mode is `BadDimension` raised on overflow).  The sweep
itself then runs on the untruncated slice. -/
def contours (c : ContourBuilder) (containsFn : Ring → Ring → ℤ) (values : List ℚ)
    (thresholds : List ℚ) : Except ErrKind (List Feature) :=
  if values.length % 2 ^ 32 ≠ (c.dx * c.dy) % 2 ^ 32 then .error .badDimension
  else do
    let r ← thresholds.foldlM
      (fun (acc : List Feature × IsoRingBuilder) t => do
        let fi ← contour c containsFn values t acc.2
        pure (acc.1 ++ [fi.1], fi.2))
      ([], IsoRingBuilder.new c.dx c.dy)
    pure r.1


/-- Modelled from the spec: rings with positive signed area become the outer
boundary of their own polygon, in ring completion order (spec on
`ContourBuilder::contour`, hole-attachment step 2). -/
def specOuters (rs : List Ring) : List (List Ring) :=
  (rs.filter (fun r => decide (area r > 0))).map (fun r => [r])

/-- Modelled from the spec: rings with non-positive signed area are the
candidate holes, in ring completion order. -/
def specHoles (rs : List Ring) : List Ring :=
  rs.filter (fun r => decide (¬ area r > 0))

/-- Modelled from the spec: each candidate hole is offered to the polygons in
order and attached to the first whose outer ring contains it; the polygon list
of the feature is the result. -/
def specPolygons (cf : Ring → Ring → ℤ) (rs : List Ring) : List (List Ring) :=
  (specHoles rs).foldl (attachHole cf) (specOuters rs)

/-! ### Association-list map lemmas -/

theorem alistFind_remove {α : Type} (m : List (ℕ × α)) (k k2 : ℕ) :
    alistFind (alistRemove m k) k2 = if k2 = k then none else alistFind m k2 := by
  induction m with
  | nil => by_cases hk : k2 = k <;> simp [alistFind, alistRemove, hk]
  | cons e t ih =>
    by_cases he : e.1 = k
    · rw [alistRemove, if_pos he, ih]
      by_cases hk : k2 = k
      · simp [hk]
      · have hek : ¬ e.1 = k2 := fun h => hk (by rw [← h, he])
        simp [hk, alistFind, hek]
    · rw [alistRemove, if_neg he, alistFind]
      by_cases hek : e.1 = k2
      · have hk : ¬ k2 = k := fun h => he (by rw [hek, h])
        simp [hek, hk, alistFind]
      · rw [if_neg hek, ih]
        by_cases hk : k2 = k <;> simp [hk, alistFind, hek]

theorem alistFind_insert {α : Type} (m : List (ℕ × α)) (k k2 : ℕ) (v : α) :
    alistFind (alistInsert m k v) k2 = if k2 = k then some v else alistFind m k2 := by
  by_cases hk : k2 = k
  · simp [alistInsert, alistFind, hk]
  · have hk2 : ¬ k = k2 := fun h => hk h.symm
    simp [alistInsert, alistFind, hk2, alistFind_remove, hk]

/-! ### Generic `Except` fold lemmas -/

theorem except_bind_ok {ε α β : Type} (x : Except ε α) (g : α → Except ε β) (b : β)
    (h : (x >>= g) = .ok b) : ∃ a, x = .ok a ∧ g a = .ok b := by
  cases x with
  | ok a => exact ⟨a, rfl, h⟩
  | error e => exact absurd h (by simp [Bind.bind, Except.bind])

theorem foldlM_ok_inv {σ α : Type} {P : σ → Prop} {f : σ → α → Except ContourRs.ErrKind σ}
    (hstep : ∀ s a s2, P s → f s a = .ok s2 → P s2) :
    ∀ (l : List α) (s : σ), P s → ∀ s2, l.foldlM f s = Except.ok s2 → P s2 := by
  intro l
  induction l with
  | nil =>
    intro s hs s2 h
    rw [List.foldlM_nil] at h
    cases h
    exact hs
  | cons a t ih =>
    intro s hs s2 h
    rw [List.foldlM_cons] at h
    obtain ⟨s1, h1, h2⟩ := except_bind_ok _ _ _ h
    exact ih s1 (hstep s a s1 hs h1) s2 h2

theorem except_foldlM_append {σ α : Type} (f : σ → α → Except ContourRs.ErrKind σ)
    (l1 l2 : List α) (s : σ) :
    (l1 ++ l2).foldlM f s = (l1.foldlM f s) >>= fun s2 => l2.foldlM f s2 := by
  induction l1 generalizing s with
  | nil => simp [List.foldlM_nil]
  | cons a t ih =>
    rw [List.cons_append, List.foldlM_cons, List.foldlM_cons]
    cases f s a with
    | ok s1 => simp only [Bind.bind, Except.bind]; exact ih s1
    | error e => simp [Bind.bind, Except.bind]

theorem foldlM_range_inv {σ : Type} {f : σ → ℕ → Except ContourRs.ErrKind σ}
    {P : ℕ → σ → Prop}
    (hstep : ∀ i s s2, P i s → f s i = .ok s2 → P (i + 1) s2) :
    ∀ (n : ℕ) (s : σ), P 0 s → ∀ s2, (List.range n).foldlM f s = Except.ok s2 → P n s2 := by
  intro n
  induction n with
  | zero =>
    intro s hs s2 h
    rw [List.range_zero, List.foldlM_nil] at h
    cases h
    exact hs
  | succ n ih =>
    intro s hs s2 h
    rw [List.range_succ, except_foldlM_append] at h
    obtain ⟨s1, h1, h2⟩ := except_bind_ok _ _ _ h
    rw [List.foldlM_cons] at h2
    obtain ⟨s3, h3, h4⟩ := except_bind_ok _ _ _ h2
    rw [List.foldlM_nil] at h4
    cases h4
    exact hstep n s1 _ (ih s hs s1 h1) h3

/-! ### Basic facts about the cast helpers and the key function -/

theorem fTrunc_natCast (n : ℕ) : fTrunc ((n : ℚ)) = n := by
  rw [fTrunc, if_neg (not_lt.mpr (by exact_mod_cast Nat.zero_le n)), Int.floor_natCast]

theorem asUsize_natCast (n : ℕ) : asUsize ((n : ℚ)) = n := by
  rw [asUsize, fTrunc_natCast, Int.toNat_natCast]

theorem indexKey_lattice (dx a b : ℕ) :
    indexKey dx ((a : ℚ) / 2, (b : ℚ) / 2) = a + 2 * b * (dx + 1) := by
  have h : ((a : ℚ) / 2) * 2 + ((b : ℚ) / 2) * ((dx : ℚ) + 1) * 4 =
      ((a + 2 * b * (dx + 1) : ℕ) : ℚ) := by push_cast; ring
  rw [indexKey, h, asUsize_natCast]

/-- Claim C3: the endpoint key `floor(x*2 + y*(dx+1)*4)` is collision-free on the
half-integer lattice `{(a/2, b/2) : a ≤ 2*dx, b ≤ 2*dy}` that the marching-squares
sweep produces: distinct lattice points get distinct keys; moreover the key depends
only on the translated point itself, so the same point receives the same key no
matter which cell's segment produced it. -/
theorem c3_index_collision_free (dx dy : ℕ) (p q : Pt)
    (hp : ∃ a b : ℕ, p = ((a : ℚ) / 2, (b : ℚ) / 2) ∧ a ≤ 2 * dx ∧ b ≤ 2 * dy)
    (hq : ∃ a b : ℕ, q = ((a : ℚ) / 2, (b : ℚ) / 2) ∧ a ≤ 2 * dx ∧ b ≤ 2 * dy) :
    (p ≠ q → indexKey dx p ≠ indexKey dx q) ∧
    (∀ (s1 s2 : Pt) (x1 y1 x2 y2 : ℤ), translate s1 x1 y1 = p → translate s2 x2 y2 = p →
      indexKey dx (translate s1 x1 y1) = indexKey dx (translate s2 x2 y2)) := by
  obtain ⟨a1, b1, rfl, ha1, hb1⟩ := hp
  obtain ⟨a2, b2, hq2, ha2, hb2⟩ := hq
  constructor
  · intro hne heq
    rw [hq2, indexKey_lattice, indexKey_lattice] at heq
    have hab : a1 = a2 ∧ b1 = b2 := by
      rcases Nat.le_total b1 b2 with hb | hb
      · obtain ⟨k, rfl⟩ := Nat.exists_eq_add_of_le hb
        have hexp : 2 * (b1 + k) * (dx + 1) = 2 * b1 * (dx + 1) + k * (2 * (dx + 1)) := by ring
        rw [hexp] at heq
        cases k with
        | zero => omega
        | succ j =>
          have h2 : 2 * (dx + 1) ≤ (j + 1) * (2 * (dx + 1)) :=
            Nat.le_mul_of_pos_left _ (by omega)
          omega
      · obtain ⟨k, rfl⟩ := Nat.exists_eq_add_of_le hb
        have hexp : 2 * (b2 + k) * (dx + 1) = 2 * b2 * (dx + 1) + k * (2 * (dx + 1)) := by ring
        rw [hexp] at heq
        cases k with
        | zero => omega
        | succ j =>
          have h2 : 2 * (dx + 1) ≤ (j + 1) * (2 * (dx + 1)) :=
            Nat.le_mul_of_pos_left _ (by omega)
          omega
    exact hne (by rw [hq2, hab.1, hab.2])
  · intro s1 s2 x1 y1 x2 y2 h1 h2
    rw [h1, h2]

/-- Witness for C3 at a concrete input: the two sweep points `(1/2, 0)` and
`(1, 0)` on a 1-by-1 grid are distinct and receive distinct keys. -/
theorem c3_witness :
    indexKey 1 (((1 : ℚ) / 2, (0 : ℚ) / 2)) ≠ indexKey 1 (((2 : ℚ) / 2, (0 : ℚ) / 2)) :=
  (c3_index_collision_free 1 1 ((1 : ℚ) / 2, (0 : ℚ) / 2) ((2 : ℚ) / 2, (0 : ℚ) / 2)
    ⟨1, 0, rfl, by omega, by omega⟩ ⟨2, 0, rfl, by omega, by omega⟩).1
    (by
      intro h
      have := congrArg Prod.fst h
      norm_num at this)

/-! ### Small list facts used by the stitching invariant -/

theorem head?_append_left {l1 l2 : List Pt} {p : Pt} (h : l1.head? = some p) :
    (l1 ++ l2).head? = some p := by
  cases l1 with
  | nil => cases h
  | cons a t => simpa using h

theorem getLast?_append_right {l1 l2 : List Pt} {q : Pt} (h : l2.getLast? = some q) :
    (l1 ++ l2).getLast? = some q := by
  induction l1 with
  | nil => simpa using h
  | cons a t ih =>
    rw [List.cons_append]
    cases hx : t ++ l2 with
    | nil =>
      rcases List.append_eq_nil.mp hx with ⟨_, h2⟩
      subst h2
      cases h
    | cons c u =>
      rw [List.getLast?_cons_cons, ← hx]
      exact ih

theorem getLast?_concat_pt (l : List Pt) (a : Pt) : (l ++ [a]).getLast? = some a :=
  getLast?_append_right rfl

/-! ### The sweep invariant

`PointOK` is the per-point property every stitched segment endpoint enjoys:
its two coordinates are an integer and a half-integer (`PtForm`), and on the
axis where the smoothing interpolation of `smoooth_linear` could fire, the two
bracketing samples straddle the threshold, so in particular they differ
(`XSafe`/`YSafe` state just the inequality, which is what claim C4 needs).
`BuilderWF` says the two endpoint maps only hold keys of live fragments whose
ring really starts (ends) at a point with that key, and `RingOK` is ring
closure plus `PointOK` for the emitted rings. -/

/-- The corner classification `values[i] >= threshold` as seen by the sweep
(out-of-range corners never get compared; `false` is a don't-care value). -/
def cornerB (values : List ℚ) (threshold : ℚ) (i : ℕ) : Bool :=
  match values[i]? with
  | some v => decide (v ≥ threshold)
  | none => false

def XSafe (dx : ℕ) (values : List ℚ) (p : Pt) : Prop :=
  asUsize p.2 * dx + asUsize p.1 < values.length →
  0 < p.1 → p.1 < (dx : ℚ) → |(asUsize p.1 : ℚ) - p.1| < EPS →
  values.getD (asUsize p.2 * dx + asUsize p.1) 0 ≠
    values.getD (asUsize p.2 * dx + asUsize p.1 - 1) 0

def YSafe (dx dy : ℕ) (values : List ℚ) (p : Pt) : Prop :=
  asUsize p.2 * dx + asUsize p.1 < values.length →
  0 < p.2 → p.2 < (dy : ℚ) → |(asUsize p.2 : ℚ) - p.2| < EPS →
  values.getD (asUsize p.2 * dx + asUsize p.1) 0 ≠
    values.getD ((asUsize p.2 - 1) * dx + asUsize p.1) 0

/-- Every raw sweep point has one integer and one half-integer coordinate. -/
def PtForm (p : Pt) : Prop :=
  (∃ k m : ℕ, p = ((k : ℚ), (m : ℚ) + 1/2)) ∨ (∃ k m : ℕ, p = ((k : ℚ) + 1/2, (m : ℚ)))

def PointOK (dx dy : ℕ) (values : List ℚ) (p : Pt) : Prop :=
  XSafe dx values p ∧ YSafe dx dy values p ∧ PtForm p

def FragWF (dx dy : ℕ) (values : List ℚ) (fr : Fragment) : Prop :=
  (∃ p, fr.ring.head? = some p ∧ indexKey dx p = fr.start) ∧
  (∃ q, fr.ring.getLast? = some q ∧ indexKey dx q = fr.stop) ∧
  (∀ p ∈ fr.ring, PointOK dx dy values p)

def BuilderWF (values : List ℚ) (b : IsoRingBuilder) : Prop :=
  (∀ i fr, alistFind b.f i = some fr → FragWF b.dx b.dy values fr ∧ i < b.next) ∧
  (∀ k i, alistFind b.fragment_by_start k = some i →
    ∃ fr, alistFind b.f i = some fr ∧ fr.start = k) ∧
  (∀ k i, alistFind b.fragment_by_end k = some i →
    ∃ fr, alistFind b.f i = some fr ∧ fr.stop = k)

/-- A returned ring is closed (first and last point share the endpoint key)
and all its points satisfy `PointOK`. -/
def RingOK (dx dy : ℕ) (values : List ℚ) (r : Ring) : Prop :=
  (∃ p q, r.head? = some p ∧ r.getLast? = some q ∧ indexKey dx p = indexKey dx q) ∧
  (∀ p ∈ r, PointOK dx dy values p)

def AccWF (values : List ℚ) (acc : IsoRingBuilder × List Ring) : Prop :=
  BuilderWF values acc.1 ∧ ∀ r ∈ acc.2, RingOK acc.1.dx acc.1.dy values r

/-- Claim C6: in the 16-entry case table, codes 0 and 15 yield no segment, the
saddle codes 5 and 10 yield exactly two segments each, every other code yields
exactly one, and every endpoint coordinate is one of `0.5`, `1.0`, `1.5`. -/
theorem c6_case_table :
    (CASES.getD 0 []).length = 0 ∧ (CASES.getD 15 []).length = 0 ∧
    (CASES.getD 5 []).length = 2 ∧ (CASES.getD 10 []).length = 2 ∧
    (∀ i < 16, i ≠ 0 → i ≠ 15 → i ≠ 5 → i ≠ 10 → (CASES.getD i []).length = 1) ∧
    (∀ cs ∈ CASES, ∀ seg ∈ cs,
      (seg.1.1 = 1/2 ∨ seg.1.1 = 1 ∨ seg.1.1 = 3/2) ∧
      (seg.1.2 = 1/2 ∨ seg.1.2 = 1 ∨ seg.1.2 = 3/2) ∧
      (seg.2.1 = 1/2 ∨ seg.2.1 = 1 ∨ seg.2.1 = 3/2) ∧
      (seg.2.2 = 1/2 ∨ seg.2.2 = 1 ∨ seg.2.2 = 3/2)) :=
  ⟨rfl, rfl, rfl, rfl, of_decide_eq_true (by with_unfolding_all rfl),
    of_decide_eq_true (by with_unfolding_all rfl)⟩

/-- Claim C8: `contour_rings` performs no dimension validation — on an empty
sample slice with positive grid dimensions the very first sample read
`values[0]` is out of bounds, i.e. the sweep panics (modelled as the
`outOfBounds` error) instead of reporting the `BadDimension` error that
`contours` would return. -/
theorem c8_contour_rings_no_validation :
    contour_rings [] (1/2) 1 1 = .error .outOfBounds ∧
    ErrKind.outOfBounds ≠ ErrKind.badDimension :=
  ⟨by with_unfolding_all rfl, by intro h; cases h⟩

theorem find_eq_uniq {α : Type} {m : List (ℕ × α)} {k : ℕ} {v w : α}
    (h1 : alistFind m k = some v) (h2 : alistFind m k = some w) : v = w := by
  rw [h1] at h2
  cases h2
  rfl

theorem stitch_wf (values : List ℚ) (line : Pt × Pt) (x y : ℤ)
    (b : IsoRingBuilder) (res : List Ring) (b2 : IsoRingBuilder) (res2 : List Ring)
    (hwf : AccWF values (b, res))
    (hPs : PointOK b.dx b.dy values (translate line.1 x y))
    (hPe : PointOK b.dx b.dy values (translate line.2 x y))
    (h : stitch line x y b res = .ok (b2, res2)) :
    AccWF values (b2, res2) ∧ b2.dx = b.dx ∧ b2.dy = b.dy := by
  obtain ⟨⟨hslab, hbs, hbe⟩, hres⟩ := hwf
  simp only [stitch] at h
  cases hfe : alistFind b.fragment_by_end (indexKey b.dx (translate line.1 x y)) with
  | some f_ix =>
    rw [hfe] at h
    cases hfs : alistFind b.fragment_by_start (indexKey b.dx (translate line.2 x y)) with
    | some g_ix =>
      rw [hfs] at h
      simp only [] at h
      by_cases hfg : f_ix = g_ix
      · -- close the ring
        rw [if_pos hfg] at h
        rcases Option.eq_none_or_eq_some (alistFind b.f f_ix) with hf | ⟨fA, hf⟩
        · rw [hf] at h; cases h
        · rw [hf] at h
          simp only [Except.ok.injEq, Prod.mk.injEq] at h
          obtain ⟨hA, hB⟩ := h
          subst hA
          subst hB
          obtain ⟨fr1, hfr1, hstop1⟩ := hbe _ _ hfe
          rw [find_eq_uniq hfr1 hf] at hstop1
          obtain ⟨fr2, hfr2, hstart2⟩ := hbs _ _ hfs
          have hfr2b : alistFind b.f f_ix = some fr2 := by rw [hfg]; exact hfr2
          rw [find_eq_uniq hfr2b hf] at hstart2
          obtain ⟨⟨p, hp, hpk⟩, ⟨q, hq, hqk⟩, hpts⟩ := (hslab _ _ hf).1
          refine ⟨⟨⟨?_, ?_, ?_⟩, ?_⟩, rfl, rfl⟩
          all_goals dsimp only
          · intro i fr hfind
            rw [alistFind_remove] at hfind
            by_cases hik : i = f_ix
            · rw [if_pos hik] at hfind; cases hfind
            · rw [if_neg hik] at hfind
              exact hslab _ _ hfind
          · intro k i hfind
            rw [alistFind_remove] at hfind
            by_cases hk : k = indexKey b.dx (translate line.2 x y)
            · rw [if_pos hk] at hfind; cases hfind
            · rw [if_neg hk] at hfind
              obtain ⟨fr, hfr, hfrs⟩ := hbs _ _ hfind
              refine ⟨fr, ?_, hfrs⟩
              rw [alistFind_remove]
              by_cases hik : i = f_ix
              · exfalso
                subst hik
                rw [find_eq_uniq hfr hf] at hfrs
                exact hk (by rw [← hfrs, hstart2])
              · rw [if_neg hik]
                exact hfr
          · intro k i hfind
            rw [alistFind_remove] at hfind
            by_cases hk : k = indexKey b.dx (translate line.1 x y)
            · rw [if_pos hk] at hfind; cases hfind
            · rw [if_neg hk] at hfind
              obtain ⟨fr, hfr, hfrs⟩ := hbe _ _ hfind
              refine ⟨fr, ?_, hfrs⟩
              rw [alistFind_remove]
              by_cases hik : i = f_ix
              · exfalso
                subst hik
                rw [find_eq_uniq hfr hf] at hfrs
                exact hk (by rw [← hfrs, hstop1])
              · rw [if_neg hik]
                exact hfr
          · intro r hr
            rcases List.mem_append.mp hr with hr | hr
            · exact hres r hr
            · have hrr : r = fA.ring ++ [translate line.2 x y] := by
                simpa using hr
              subst hrr
              constructor
              · refine ⟨p, translate line.2 x y, head?_append_left hp, getLast?_concat_pt _ _, ?_⟩
                rw [hpk, hstart2]
              · intro z hz
                rcases List.mem_append.mp hz with hz | hz
                · exact hpts z hz
                · have hze : z = translate line.2 x y := by simpa using hz
                  subst hze
                  exact hPe
      · -- merge two distinct fragments
        rw [if_neg hfg] at h
        rcases Option.eq_none_or_eq_some (alistFind b.f f_ix) with hf | ⟨fA, hf⟩
        · rw [hf] at h; cases h
        · rw [hf] at h
          simp only [] at h
          rcases Option.eq_none_or_eq_some (alistFind (alistRemove b.f f_ix) g_ix) with
            hg | ⟨gA, hg⟩
          · rw [hg] at h; cases h
          · rw [hg] at h
            simp only [Except.ok.injEq, Prod.mk.injEq] at h
            obtain ⟨hA, hB⟩ := h
            subst hA
            subst hB
            dsimp only at hslab hbs hbe hres ⊢
            have hgf : alistFind b.f g_ix = some gA := by
              rw [alistFind_remove, if_neg (fun hx => hfg hx.symm)] at hg
              exact hg
            obtain ⟨fr1, hfr1, hstop1⟩ := hbe _ _ hfe
            rw [find_eq_uniq hfr1 hf] at hstop1
            obtain ⟨fr2, hfr2, hstart2⟩ := hbs _ _ hfs
            rw [find_eq_uniq hfr2 hgf] at hstart2
            obtain ⟨⟨pf, hpf, hpfk⟩, ⟨qf, hqf, hqfk⟩, hptsf⟩ := (hslab _ _ hf).1
            obtain ⟨⟨pg, hpg, hpgk⟩, ⟨qg, hqg, hqgk⟩, hptsg⟩ := (hslab _ _ hgf).1
            have hfnext : f_ix < b.next := (hslab _ _ hf).2
            have hgnext : g_ix < b.next := (hslab _ _ hgf).2
            refine ⟨⟨⟨?_, ?_, ?_⟩, ?_⟩, rfl, rfl⟩
            all_goals dsimp only
            · intro i fr hfind
              rw [alistFind_insert] at hfind
              by_cases hin : i = b.next
              · rw [if_pos hin] at hfind
                cases hfind
                refine ⟨⟨⟨pf, head?_append_left hpf, hpfk⟩,
                  ⟨qg, getLast?_append_right hqg, hqgk⟩, ?_⟩, by omega⟩
                intro z hz
                rcases List.mem_append.mp hz with hz | hz
                · exact hptsf z hz
                · exact hptsg z hz
              · rw [if_neg hin, alistFind_remove] at hfind
                by_cases hig : i = g_ix
                · rw [if_pos hig] at hfind; cases hfind
                · rw [if_neg hig, alistFind_remove] at hfind
                  by_cases hif : i = f_ix
                  · rw [if_pos hif] at hfind; cases hfind
                  · rw [if_neg hif] at hfind
                    obtain ⟨hwf1, hlt⟩ := hslab _ _ hfind
                    exact ⟨hwf1, by omega⟩
            · intro k i hfind
              rw [alistFind_insert] at hfind
              by_cases hk : k = fA.start
              · rw [if_pos hk] at hfind
                cases hfind
                refine ⟨⟨fA.start, gA.stop, fA.ring ++ gA.ring⟩, ?_, ?_⟩
                · rw [alistFind_insert, if_pos rfl]
                · rw [hk]
              · rw [if_neg hk, alistFind_remove] at hfind
                by_cases hkei : k = indexKey b.dx (translate line.2 x y)
                · rw [if_pos hkei] at hfind; cases hfind
                · rw [if_neg hkei] at hfind
                  obtain ⟨fr, hfr, hfrs⟩ := hbs _ _ hfind
                  have hlt : i < b.next := (hslab _ _ hfr).2
                  refine ⟨fr, ?_, hfrs⟩
                  rw [alistFind_insert, if_neg (by omega), alistFind_remove]
                  by_cases hig : i = g_ix
                  · exfalso
                    subst hig
                    rw [find_eq_uniq hfr hgf] at hfrs
                    exact hkei (by rw [← hfrs, hstart2])
                  · rw [if_neg hig, alistFind_remove]
                    by_cases hif : i = f_ix
                    · exfalso
                      subst hif
                      rw [find_eq_uniq hfr hf] at hfrs
                      exact hk (by rw [← hfrs])
                    · rw [if_neg hif]
                      exact hfr
            · intro k i hfind
              rw [alistFind_insert] at hfind
              by_cases hk : k = gA.stop
              · rw [if_pos hk] at hfind
                cases hfind
                refine ⟨⟨fA.start, gA.stop, fA.ring ++ gA.ring⟩, ?_, ?_⟩
                · rw [alistFind_insert, if_pos rfl]
                · rw [hk]
              · rw [if_neg hk, alistFind_remove] at hfind
                by_cases hksi : k = indexKey b.dx (translate line.1 x y)
                · rw [if_pos hksi] at hfind; cases hfind
                · rw [if_neg hksi] at hfind
                  obtain ⟨fr, hfr, hfrs⟩ := hbe _ _ hfind
                  have hlt : i < b.next := (hslab _ _ hfr).2
                  refine ⟨fr, ?_, hfrs⟩
                  rw [alistFind_insert, if_neg (by omega), alistFind_remove]
                  by_cases hig : i = g_ix
                  · exfalso
                    subst hig
                    rw [find_eq_uniq hfr hgf] at hfrs
                    exact hk (by rw [← hfrs])
                  · rw [if_neg hig, alistFind_remove]
                    by_cases hif : i = f_ix
                    · exfalso
                      subst hif
                      rw [find_eq_uniq hfr hf] at hfrs
                      exact hksi (by rw [← hfrs, hstop1])
                    · rw [if_neg hif]
                      exact hfr
            · intro r hr
              exact hres r hr
    | none =>
      -- only the end-map hit: extend the fragment forward
      rw [hfs] at h
      simp only [] at h
      rcases Option.eq_none_or_eq_some (alistFind b.f f_ix) with hf | ⟨fA, hf⟩
      · rw [hf] at h; cases h
      · rw [hf] at h
        simp only [Except.ok.injEq, Prod.mk.injEq] at h
        obtain ⟨hA, hB⟩ := h
        subst hA
        subst hB
        dsimp only at hslab hbs hbe hres ⊢
        obtain ⟨fr1, hfr1, hstop1⟩ := hbe _ _ hfe
        rw [find_eq_uniq hfr1 hf] at hstop1
        obtain ⟨⟨pf, hpf, hpfk⟩, ⟨qf, hqf, hqfk⟩, hptsf⟩ := (hslab _ _ hf).1
        have hfnext : f_ix < b.next := (hslab _ _ hf).2
        refine ⟨⟨⟨?_, ?_, ?_⟩, ?_⟩, rfl, rfl⟩
        all_goals dsimp only
        · intro i fr hfind
          rw [alistFind_insert] at hfind
          by_cases hif : i = f_ix
          · rw [if_pos hif] at hfind
            cases hfind
            refine ⟨⟨⟨pf, head?_append_left hpf, hpfk⟩,
              ⟨translate line.2 x y, getLast?_concat_pt _ _, rfl⟩, ?_⟩, by omega⟩
            intro z hz
            rcases List.mem_append.mp hz with hz | hz
            · exact hptsf z hz
            · have hze : z = translate line.2 x y := by simpa using hz
              subst hze
              exact hPe
          · rw [if_neg hif] at hfind
            exact hslab _ _ hfind
        · intro k i hfind
          obtain ⟨fr, hfr, hfrs⟩ := hbs _ _ hfind
          by_cases hif : i = f_ix
          · subst hif
            rw [find_eq_uniq hfr hf] at hfrs
            refine ⟨⟨fA.start, indexKey b.dx (translate line.2 x y),
              fA.ring ++ [translate line.2 x y]⟩, ?_, ?_⟩
            · rw [alistFind_insert, if_pos rfl]
            · exact hfrs
          · refine ⟨fr, ?_, hfrs⟩
            rw [alistFind_insert, if_neg hif]
            exact hfr
        · intro k i hfind
          rw [alistFind_insert] at hfind
          by_cases hkei : k = indexKey b.dx (translate line.2 x y)
          · rw [if_pos hkei] at hfind
            cases hfind
            refine ⟨⟨fA.start, indexKey b.dx (translate line.2 x y),
              fA.ring ++ [translate line.2 x y]⟩, ?_, ?_⟩
            · rw [alistFind_insert, if_pos rfl]
            · rw [hkei]
          · rw [if_neg hkei, alistFind_remove] at hfind
            by_cases hksi : k = indexKey b.dx (translate line.1 x y)
            · rw [if_pos hksi] at hfind; cases hfind
            · rw [if_neg hksi] at hfind
              obtain ⟨fr, hfr, hfrs⟩ := hbe _ _ hfind
              by_cases hif : i = f_ix
              · exfalso
                subst hif
                rw [find_eq_uniq hfr hf] at hfrs
                exact hksi (by rw [← hfrs, hstop1])
              · refine ⟨fr, ?_, hfrs⟩
                rw [alistFind_insert, if_neg hif]
                exact hfr
        · intro r hr
          exact hres r hr
  | none =>
    rw [hfe] at h
    cases hfs : alistFind b.fragment_by_start (indexKey b.dx (translate line.2 x y)) with
    | some f_ix =>
      rw [hfs] at h
      simp only [] at h
      -- only the start-map hit: extend the fragment backward
      -- (the mirrored close/merge inner branch is dead: the end-map lookup is `none`)
      rcases Option.eq_none_or_eq_some (alistFind b.f f_ix) with hf | ⟨fA, hf⟩
      · rw [hf] at h; cases h
      · rw [hf] at h
        simp only [Except.ok.injEq, Prod.mk.injEq] at h
        obtain ⟨hA, hB⟩ := h
        subst hA
        subst hB
        dsimp only at hslab hbs hbe hres ⊢
        obtain ⟨fr2, hfr2, hstart2⟩ := hbs _ _ hfs
        rw [find_eq_uniq hfr2 hf] at hstart2
        obtain ⟨⟨pf, hpf, hpfk⟩, ⟨qf, hqf, hqfk⟩, hptsf⟩ := (hslab _ _ hf).1
        have hfnext : f_ix < b.next := (hslab _ _ hf).2
        refine ⟨⟨⟨?_, ?_, ?_⟩, ?_⟩, rfl, rfl⟩
        all_goals dsimp only
        · intro i fr hfind
          rw [alistFind_insert] at hfind
          by_cases hif : i = f_ix
          · rw [if_pos hif] at hfind
            cases hfind
            refine ⟨⟨⟨translate line.1 x y, rfl, rfl⟩,
              ⟨qf, @getLast?_append_right [translate line.1 x y] fA.ring qf hqf, hqfk⟩, ?_⟩,
              by omega⟩
            intro z hz
            rcases List.mem_cons.mp hz with hz | hz
            · subst hz
              exact hPs
            · exact hptsf z hz
          · rw [if_neg hif] at hfind
            exact hslab _ _ hfind
        · intro k i hfind
          rw [alistFind_insert] at hfind
          by_cases hksi : k = indexKey b.dx (translate line.1 x y)
          · rw [if_pos hksi] at hfind
            cases hfind
            refine ⟨⟨indexKey b.dx (translate line.1 x y), fA.stop,
              translate line.1 x y :: fA.ring⟩, ?_, ?_⟩
            · rw [alistFind_insert, if_pos rfl]
            · rw [hksi]
          · rw [if_neg hksi, alistFind_remove] at hfind
            by_cases hkei : k = indexKey b.dx (translate line.2 x y)
            · rw [if_pos hkei] at hfind; cases hfind
            · rw [if_neg hkei] at hfind
              obtain ⟨fr, hfr, hfrs⟩ := hbs _ _ hfind
              by_cases hif : i = f_ix
              · exfalso
                subst hif
                rw [find_eq_uniq hfr hf] at hfrs
                exact hkei (by rw [← hfrs, hstart2])
              · refine ⟨fr, ?_, hfrs⟩
                rw [alistFind_insert, if_neg hif]
                exact hfr
        · intro k i hfind
          obtain ⟨fr, hfr, hfrs⟩ := hbe _ _ hfind
          by_cases hif : i = f_ix
          · subst hif
            rw [find_eq_uniq hfr hf] at hfrs
            refine ⟨⟨indexKey b.dx (translate line.1 x y), fA.stop,
              translate line.1 x y :: fA.ring⟩, ?_, ?_⟩
            · rw [alistFind_insert, if_pos rfl]
            · exact hfrs
          · refine ⟨fr, ?_, hfrs⟩
            rw [alistFind_insert, if_neg hif]
            exact hfr
        · intro r hr
          exact hres r hr
    | none =>
      -- neither endpoint known: open a new fragment
      rw [hfs] at h
      simp only [Except.ok.injEq, Prod.mk.injEq] at h
      obtain ⟨hA, hB⟩ := h
      subst hA
      subst hB
      dsimp only at hslab hbs hbe hres ⊢
      refine ⟨⟨⟨?_, ?_, ?_⟩, ?_⟩, rfl, rfl⟩
      all_goals dsimp only
      · intro i fr hfind
        rw [alistFind_insert] at hfind
        by_cases hin : i = b.next
        · rw [if_pos hin] at hfind
          cases hfind
          refine ⟨⟨⟨translate line.1 x y, rfl, rfl⟩,
            ⟨translate line.2 x y, rfl, rfl⟩, ?_⟩, by omega⟩
          intro z hz
          rcases List.mem_cons.mp hz with hz | hz
          · subst hz
            exact hPs
          · have hze : z = translate line.2 x y := by simpa using hz
            subst hze
            exact hPe
        · rw [if_neg hin] at hfind
          obtain ⟨hwf1, hlt⟩ := hslab _ _ hfind
          exact ⟨hwf1, by omega⟩
      · intro k i hfind
        rw [alistFind_insert] at hfind
        by_cases hksi : k = indexKey b.dx (translate line.1 x y)
        · rw [if_pos hksi] at hfind
          cases hfind
          refine ⟨⟨indexKey b.dx (translate line.1 x y), indexKey b.dx (translate line.2 x y),
            [translate line.1 x y, translate line.2 x y]⟩, ?_, ?_⟩
          · rw [alistFind_insert, if_pos rfl]
          · rw [hksi]
        · rw [if_neg hksi] at hfind
          obtain ⟨fr, hfr, hfrs⟩ := hbs _ _ hfind
          have hlt : i < b.next := (hslab _ _ hfr).2
          refine ⟨fr, ?_, hfrs⟩
          rw [alistFind_insert, if_neg (by omega)]
          exact hfr
      · intro k i hfind
        rw [alistFind_insert] at hfind
        by_cases hkei : k = indexKey b.dx (translate line.2 x y)
        · rw [if_pos hkei] at hfind
          cases hfind
          refine ⟨⟨indexKey b.dx (translate line.1 x y), indexKey b.dx (translate line.2 x y),
            [translate line.1 x y, translate line.2 x y]⟩, ?_, ?_⟩
          · rw [alistFind_insert, if_pos rfl]
          · rw [hkei]
        · rw [if_neg hkei] at hfind
          obtain ⟨fr, hfr, hfrs⟩ := hbe _ _ hfind
          have hlt : i < b.next := (hslab _ _ hfr).2
          refine ⟨fr, ?_, hfrs⟩
          rw [alistFind_insert, if_neg (by omega)]
          exact hfr
      · intro r hr
        exact hres r hr

/-! ### Per-shape safety of the stitched segment endpoints -/

theorem cornerB_of_lt {values : List ℚ} {threshold : ℚ} {i : ℕ} (h : i < values.length) :
    cornerB values threshold i = decide (values.getD i 0 ≥ threshold) := by
  rw [cornerB, List.getElem?_eq_getElem h, List.getD_eq_getElem values 0 h]

theorem asUsize_add_half (m : ℕ) : asUsize ((m : ℚ) + 1/2) = m := by
  have hpos : ¬ ((m : ℚ) + 1/2 < 0) := by
    push_neg
    positivity
  have hfl : ⌊(m : ℚ) + 1/2⌋ = (m : ℤ) := by
    rw [Int.floor_eq_iff]
    constructor
    · push_cast
      norm_num
    · push_cast
      norm_num
  rw [asUsize, fTrunc, if_neg hpos, hfl, Int.toNat_natCast]

theorem half_not_lt_EPS (q : ℚ) (h : |q| = 1/2) : ¬ |q| < EPS := by
  rw [h, EPS]
  norm_num

theorem abs_sub_half (m : ℕ) : |(m : ℚ) - ((m : ℚ) + 1/2)| = 1/2 := by
  rw [show (m : ℚ) - ((m : ℚ) + 1/2) = -(1/2) by ring, abs_neg]
  norm_num

/-- Safety of a vertical-edge point `(k, m + 1/2)`: the only smoothing branch
whose guards can pass is the x-branch, and its bracketing samples
`values[m*dx + k - 1]`, `values[m*dx + k]` differ whenever the supplied corner
comparisons differ. -/
theorem pointOK_vert (dx dy : ℕ) (values : List ℚ) (threshold : ℚ) (k m : ℕ)
    (h : 0 < k → k < dx → m * dx + k < values.length →
      cornerB values threshold (m * dx + (k - 1)) ≠ cornerB values threshold (m * dx + k)) :
    PointOK dx dy values ((k : ℚ), (m : ℚ) + 1/2) := by
  refine ⟨?_, ?_, Or.inl ⟨k, m, rfl⟩⟩
  · intro hix hx0 hxdx _
    simp only [asUsize_natCast, asUsize_add_half] at hix ⊢
    have hk0 : 0 < k := by
      have hq : (0 : ℚ) < (k : ℚ) := hx0
      exact_mod_cast hq
    have hkdx : k < dx := by
      have hq : (k : ℚ) < (dx : ℚ) := hxdx
      exact_mod_cast hq
    intro heq
    have hlt1 : m * dx + (k - 1) < values.length := by omega
    have hidx : m * dx + (k - 1) = m * dx + k - 1 := by omega
    refine h hk0 hkdx hix ?_
    rw [cornerB_of_lt hlt1, cornerB_of_lt hix, hidx, heq]
  · intro _ _ _ heps
    exfalso
    rw [asUsize_add_half] at heps
    exact half_not_lt_EPS _ (abs_sub_half m) heps

/-- Safety of a horizontal-edge point `(k + 1/2, m)`: only the y-branch guards
can pass, and its bracketing samples `values[(m-1)*dx + k]`, `values[m*dx + k]`
differ whenever the supplied corner comparisons differ. -/
theorem pointOK_horiz (dx dy : ℕ) (values : List ℚ) (threshold : ℚ) (k m : ℕ)
    (h : 0 < m → m < dy → m * dx + k < values.length →
      cornerB values threshold ((m - 1) * dx + k) ≠ cornerB values threshold (m * dx + k)) :
    PointOK dx dy values ((k : ℚ) + 1/2, (m : ℚ)) := by
  refine ⟨?_, ?_, Or.inr ⟨k, m, rfl⟩⟩
  · intro _ _ _ heps
    exfalso
    rw [asUsize_add_half] at heps
    exact half_not_lt_EPS _ (abs_sub_half k) heps
  · intro hix hy0 hydy _
    simp only [asUsize_natCast, asUsize_add_half] at hix ⊢
    have hm0 : 0 < m := by
      have hq : (0 : ℚ) < (m : ℚ) := hy0
      exact_mod_cast hq
    have hmdy : m < dy := by
      have hq : (m : ℚ) < (dy : ℚ) := hydy
      exact_mod_cast hq
    intro heq
    have hlt1 : (m - 1) * dx + k < values.length := by
      have : (m - 1) * dx ≤ m * dx := Nat.mul_le_mul_right _ (by omega)
      omega
    refine h hm0 hmdy hix ?_
    rw [cornerB_of_lt hlt1, cornerB_of_lt hix, heq]

/-- The four point shapes that occur in `CASES`, with the corner-bit
inequality each one implies: a point appears in a case entry exactly when the
two corners it separates are classified differently. -/
abbrev ShapeOK (t0 t1 t2 t3 : Bool) (p : Pt) : Prop :=
  (p = (1, 3/2) → t0 ≠ t1) ∧ (p = (1/2, 1) → t0 ≠ t3) ∧
  (p = (3/2, 1) → t1 ≠ t2) ∧ (p = (1, 1/2) → t2 ≠ t3) ∧
  (p = (1, 3/2) ∨ p = (1/2, 1) ∨ p = (3/2, 1) ∨ p = (1, 1/2))

/-- Checked over all 16 corner configurations: every endpoint of every segment
of the selected case entry is one of the four shapes, and carries the
corresponding corner-bit inequality. -/
theorem cases_shape (t0 t1 t2 t3 : Bool) :
    ∀ seg ∈ CASES.getD (t0.toNat ||| t1.toNat <<< 1 ||| t2.toNat <<< 2 ||| t3.toNat <<< 3) [],
      ShapeOK t0 t1 t2 t3 seg.1 ∧ ShapeOK t0 t1 t2 t3 seg.2 := by
  cases t0 <;> cases t1 <;> cases t2 <;> cases t3 <;>
    exact of_decide_eq_true (by with_unfolding_all rfl)

theorem translate_vert_eq (x y : ℤ) (xn yn : ℕ)
    (hx : x = (xn : ℤ) - 1) (hy : y = (yn : ℤ) - 1) :
    translate ((1 : ℚ), (3/2 : ℚ)) x y = ((xn : ℚ), (yn : ℚ) + 1/2) := by
  subst hx hy
  rw [translate, Prod.mk.injEq]
  constructor <;> push_cast <;> ring

theorem translate_horiz_left_eq (x y : ℤ) (xn yn : ℕ) (hxn : 1 ≤ xn)
    (hx : x = (xn : ℤ) - 1) (hy : y = (yn : ℤ) - 1) :
    translate ((1/2 : ℚ), (1 : ℚ)) x y = (((xn - 1 : ℕ) : ℚ) + 1/2, (yn : ℚ)) := by
  subst hx hy
  rw [translate, Prod.mk.injEq]
  constructor
  · rw [Nat.cast_sub hxn]
    push_cast
    ring
  · push_cast
    ring

theorem translate_horiz_right_eq (x y : ℤ) (xn yn : ℕ)
    (hx : x = (xn : ℤ) - 1) (hy : y = (yn : ℤ) - 1) :
    translate ((3/2 : ℚ), (1 : ℚ)) x y = ((xn : ℚ) + 1/2, (yn : ℚ)) := by
  subst hx hy
  rw [translate, Prod.mk.injEq]
  constructor <;> push_cast <;> ring

theorem translate_vert_low_eq (x y : ℤ) (xn yn : ℕ) (hyn : 1 ≤ yn)
    (hx : x = (xn : ℤ) - 1) (hy : y = (yn : ℤ) - 1) :
    translate ((1 : ℚ), (1/2 : ℚ)) x y = ((xn : ℚ), ((yn - 1 : ℕ) : ℚ) + 1/2) := by
  subst hx hy
  rw [translate, Prod.mk.injEq]
  constructor
  · push_cast
    ring
  · rw [Nat.cast_sub hyn]
    push_cast
    ring

/-- All endpoints of all segments of one cell's case entry satisfy `PointOK`.
The cell sits at loop coordinates `(x, y) = (xn - 1, yn - 1)`; the four
hypotheses supply, per shape, what the sweep knows about the corner
comparisons around that cell (trivially dischargeable at grid borders, where
the missing corners are classified `false`). -/
theorem cell_ok (values : List ℚ) (threshold : ℚ) (dx dy : ℕ) (x y : ℤ) (xn yn : ℕ)
    (t0 t1 t2 t3 : Bool)
    (hx : x = (xn : ℤ) - 1) (hy : y = (yn : ℤ) - 1)
    (hA : t0 ≠ t1 → 0 < xn → xn < dx → yn * dx + xn < values.length →
      cornerB values threshold (yn * dx + (xn - 1)) ≠ cornerB values threshold (yn * dx + xn))
    (hB : t0 ≠ t3 → 1 ≤ xn ∧ (0 < yn → yn < dy → yn * dx + (xn - 1) < values.length →
      cornerB values threshold ((yn - 1) * dx + (xn - 1)) ≠
        cornerB values threshold (yn * dx + (xn - 1))))
    (hC : t1 ≠ t2 → 0 < yn → yn < dy → yn * dx + xn < values.length →
      cornerB values threshold ((yn - 1) * dx + xn) ≠ cornerB values threshold (yn * dx + xn))
    (hD : t2 ≠ t3 → 1 ≤ yn ∧ (0 < xn → xn < dx → (yn - 1) * dx + xn < values.length →
      cornerB values threshold ((yn - 1) * dx + (xn - 1)) ≠
        cornerB values threshold ((yn - 1) * dx + xn))) :
    ∀ seg ∈ CASES.getD (t0.toNat ||| t1.toNat <<< 1 ||| t2.toNat <<< 2 ||| t3.toNat <<< 3) [],
      PointOK dx dy values (translate seg.1 x y) ∧ PointOK dx dy values (translate seg.2 x y) := by
  have hpoint : ∀ p : Pt, ShapeOK t0 t1 t2 t3 p → PointOK dx dy values (translate p x y) := by
    intro p hp
    obtain ⟨ha, hb, hc, hd, hshape⟩ := hp
    rcases hshape with hs | hs | hs | hs
    · subst hs
      rw [translate_vert_eq x y xn yn hx hy]
      exact pointOK_vert dx dy values threshold xn yn (hA (ha rfl))
    · subst hs
      obtain ⟨hxn, hcb⟩ := hB (hb rfl)
      rw [translate_horiz_left_eq x y xn yn hxn hx hy]
      refine pointOK_horiz dx dy values threshold (xn - 1) yn ?_
      intro h1 h2 h3
      exact hcb h1 h2 h3
    · subst hs
      rw [translate_horiz_right_eq x y xn yn hx hy]
      exact pointOK_horiz dx dy values threshold xn yn (hC (hc rfl))
    · subst hs
      obtain ⟨hyn, hcb⟩ := hD (hd rfl)
      rw [translate_vert_low_eq x y xn yn hyn hx hy]
      refine pointOK_vert dx dy values threshold xn (yn - 1) ?_
      intro h1 h2 h3
      exact hcb h1 h2 h3
  intro seg hseg
  obtain ⟨h1, h2⟩ := cases_shape t0 t1 t2 t3 seg hseg
  exact ⟨hpoint seg.1 h1, hpoint seg.2 h2⟩

theorem foldlM_ok_inv_mem {σ α : Type} {P : σ → Prop} {f : σ → α → Except ErrKind σ} :
    ∀ {l : List α}, (∀ s a s2, a ∈ l → P s → f s a = .ok s2 → P s2) →
    ∀ s : σ, P s → ∀ s2, l.foldlM f s = Except.ok s2 → P s2 := by
  intro l
  induction l with
  | nil =>
    intro _ s hs s2 h
    rw [List.foldlM_nil] at h
    cases h
    exact hs
  | cons a t ih =>
    intro hstep s hs s2 h
    rw [List.foldlM_cons] at h
    obtain ⟨s1, h1, h2⟩ := except_bind_ok _ _ _ h
    exact ih (fun s b s3 hb => hstep s b s3 (List.mem_cons_of_mem a hb))
      s1 (hstep s a s1 (List.mem_cons_self a t) hs h1) s2 h2

theorem caseStitch_wf (values : List ℚ) (code : ℕ) (x y : ℤ) (d0 e0 : ℕ)
    (acc acc2 : IsoRingBuilder × List Ring)
    (hwf : AccWF values acc) (hdx : acc.1.dx = d0) (hdy : acc.1.dy = e0)
    (hseg : ∀ seg ∈ CASES.getD code [],
      PointOK d0 e0 values (translate seg.1 x y) ∧ PointOK d0 e0 values (translate seg.2 x y))
    (h : caseStitch code x y acc = .ok acc2) :
    AccWF values acc2 ∧ acc2.1.dx = d0 ∧ acc2.1.dy = e0 := by
  refine foldlM_ok_inv_mem
    (P := fun a => AccWF values a ∧ a.1.dx = d0 ∧ a.1.dy = e0) ?_ acc ⟨hwf, hdx, hdy⟩ acc2 h
  intro s seg s2 hmem hP hstep
  obtain ⟨hwf1, hdx1, hdy1⟩ := hP
  obtain ⟨hps, hpe⟩ := hseg seg hmem
  rw [← hdx1, ← hdy1] at hps hpe
  have hout := stitch_wf values seg x y s.1 s.2 s2.1 s2.2 hwf1 hps hpe hstep
  exact ⟨hout.1, by rw [hout.2.1, hdx1], by rw [hout.2.2, hdy1]⟩

theorem getV_ok_cornerB (threshold : ℚ) {values : List ℚ} {i : ℕ} {v : ℚ}
    (h : getV values i = .ok v) :
    cornerB values threshold i = decide (v ≥ threshold) := by
  rw [cornerB]
  cases hv : values.get? i with
  | some w =>
    rw [getV, hv] at h
    cases h
    rw [List.get?_eq_getElem?] at hv
    rw [hv]
  | none =>
    rw [getV, hv] at h
    cases h

theorem pure_ok {α : Type} {a b : α} (h : (pure a : Except ErrKind α) = .ok b) : a = b := by
  cases h
  rfl

theorem firstRowStep_wf (values : List ℚ) (threshold : ℚ) (d0 e0 : ℕ) (i : ℕ)
    (st st2 : Bool × IsoRingBuilder × List Ring)
    (hP : st.1 = cornerB values threshold i ∧ AccWF values st.2 ∧
      st.2.1.dx = d0 ∧ st.2.1.dy = e0)
    (h : firstRowStep values threshold st i = .ok st2) :
    st2.1 = cornerB values threshold (i + 1) ∧ AccWF values st2.2 ∧
      st2.2.1.dx = d0 ∧ st2.2.1.dy = e0 := by
  obtain ⟨ht, hwf, hdx, hdy⟩ := hP
  simp only [firstRowStep] at h
  obtain ⟨v, hv, h⟩ := except_bind_ok _ _ _ h
  obtain ⟨acc, hacc, h⟩ := except_bind_ok _ _ _ h
  have hst2 := pure_ok h
  subst hst2
  have hobl := cell_ok values threshold d0 e0 (i : ℤ) (-1) (i + 1) 0
    st.1 (decide (v ≥ threshold)) false false
    (by push_cast; ring) (by norm_num)
    (by
      intro hne _ _ _
      have h1 : 0 * d0 + (i + 1 - 1) = i := by omega
      have h2 : 0 * d0 + (i + 1) = i + 1 := by omega
      rw [h1, h2, ← ht, getV_ok_cornerB threshold hv]
      exact hne)
    (fun _ => ⟨by omega, fun h0 => absurd h0 (by omega)⟩)
    (fun _ h0 => absurd h0 (by omega))
    (fun hc => absurd rfl hc)
  have hcode : ∀ a b : Bool,
      a.toNat ||| b.toNat <<< 1 =
        a.toNat ||| b.toNat <<< 1 ||| false.toNat <<< 2 ||| false.toNat <<< 3 := by decide
  rw [hcode st.1 (decide (v ≥ threshold))] at hacc
  have hout := caseStitch_wf values _ _ _ d0 e0 st.2 acc hwf hdx hdy hobl hacc
  exact ⟨(getV_ok_cornerB threshold hv).symm, hout⟩

theorem midRowStep_wf (values : List ℚ) (threshold : ℚ) (d0 e0 y : ℕ) (i : ℕ)
    (st st2 : Bool × Bool × IsoRingBuilder × List Ring)
    (hP : st.1 = cornerB values threshold (y * d0 + d0 + i) ∧
      st.2.1 = cornerB values threshold (y * d0 + i) ∧ AccWF values st.2.2 ∧
      st.2.2.1.dx = d0 ∧ st.2.2.1.dy = e0)
    (h : midRowStep values threshold d0 y st i = .ok st2) :
    st2.1 = cornerB values threshold (y * d0 + d0 + (i + 1)) ∧
      st2.2.1 = cornerB values threshold (y * d0 + (i + 1)) ∧ AccWF values st2.2.2 ∧
      st2.2.2.1.dx = d0 ∧ st2.2.2.1.dy = e0 := by
  obtain ⟨ht1, ht2, hwf, hdx, hdy⟩ := hP
  simp only [midRowStep] at h
  obtain ⟨v, hv, h⟩ := except_bind_ok _ _ _ h
  obtain ⟨w, hw, h⟩ := except_bind_ok _ _ _ h
  obtain ⟨acc, hacc, h⟩ := except_bind_ok _ _ _ h
  have hst2 := pure_ok h
  subst hst2
  have hobl := cell_ok values threshold d0 e0 (i : ℤ) (y : ℤ) (i + 1) (y + 1)
    st.1 (decide (v ≥ threshold)) (decide (w ≥ threshold)) st.2.1
    (by push_cast; ring) (by push_cast; ring)
    (by
      intro hne _ _ _
      have h1 : (y + 1) * d0 + (i + 1 - 1) = y * d0 + d0 + i := by
        rw [Nat.add_sub_cancel]
        ring
      have h2 : (y + 1) * d0 + (i + 1) = y * d0 + d0 + i + 1 := by ring
      rw [h1, h2, ← ht1, getV_ok_cornerB threshold hv]
      exact hne)
    (by
      intro hne
      refine ⟨by omega, ?_⟩
      intro _ _ _
      have h1 : (y + 1 - 1) * d0 + (i + 1 - 1) = y * d0 + i := by
        rw [Nat.add_sub_cancel, Nat.add_sub_cancel]
      have h2 : (y + 1) * d0 + (i + 1 - 1) = y * d0 + d0 + i := by
        rw [Nat.add_sub_cancel]
        ring
      rw [h1, h2, ← ht1, ← ht2]
      exact fun hq => hne hq.symm)
    (by
      intro hne _ _ _
      have h1 : (y + 1 - 1) * d0 + (i + 1) = y * d0 + i + 1 := by
        rw [Nat.add_sub_cancel]
        ring
      have h2 : (y + 1) * d0 + (i + 1) = y * d0 + d0 + i + 1 := by ring
      rw [h1, h2, getV_ok_cornerB threshold hw, getV_ok_cornerB threshold hv]
      exact fun hq => hne hq.symm)
    (by
      intro hne
      refine ⟨by omega, ?_⟩
      intro _ _ _
      have h1 : (y + 1 - 1) * d0 + (i + 1 - 1) = y * d0 + i := by
        rw [Nat.add_sub_cancel, Nat.add_sub_cancel]
      have h2 : (y + 1 - 1) * d0 + (i + 1) = y * d0 + i + 1 := by
        rw [Nat.add_sub_cancel]
        ring
      rw [h1, h2, ← ht2, getV_ok_cornerB threshold hw]
      exact fun hq => hne hq.symm)
  have hout := caseStitch_wf values _ _ _ d0 e0 st.2.2 acc hwf hdx hdy hobl hacc
  refine ⟨?_, ?_, hout⟩
  · rw [show y * d0 + d0 + (i + 1) = y * d0 + d0 + i + 1 by ring]
    exact (getV_ok_cornerB threshold hv).symm
  · rw [show y * d0 + (i + 1) = y * d0 + i + 1 by ring]
    exact (getV_ok_cornerB threshold hw).symm

theorem midRow_wf (values : List ℚ) (threshold : ℚ) (d0 e0 y : ℕ)
    (acc acc2 : IsoRingBuilder × List Ring)
    (hwf : AccWF values acc) (hdx : acc.1.dx = d0) (hdy : acc.1.dy = e0)
    (h : midRow values threshold d0 acc y = .ok acc2) :
    AccWF values acc2 ∧ acc2.1.dx = d0 ∧ acc2.1.dy = e0 := by
  simp only [midRow] at h
  obtain ⟨v, hv, h⟩ := except_bind_ok _ _ _ h
  obtain ⟨w, hw, h⟩ := except_bind_ok _ _ _ h
  obtain ⟨accL, haccL, h⟩ := except_bind_ok _ _ _ h
  obtain ⟨stM, hstM, h⟩ := except_bind_ok _ _ _ h
  have hoblL := cell_ok values threshold d0 e0 (-1) (y : ℤ) 0 (y + 1)
    false (decide (v ≥ threshold)) (decide (w ≥ threshold)) false
    (by norm_num) (by push_cast; ring)
    (fun _ h0 _ _ => absurd h0 (by omega))
    (fun hc => absurd rfl hc)
    (by
      intro hne _ _ _
      have h1 : (y + 1 - 1) * d0 + 0 = y * d0 := by
        rw [Nat.add_sub_cancel]
        ring
      have h2 : (y + 1) * d0 + 0 = y * d0 + d0 := by ring
      rw [h1, h2, getV_ok_cornerB threshold hw, getV_ok_cornerB threshold hv]
      exact fun hq => hne hq.symm)
    (by
      intro _
      refine ⟨by omega, ?_⟩
      intro h0 _ _
      exact absurd h0 (by omega))
  have hcodeL : ∀ a b : Bool,
      a.toNat <<< 1 ||| b.toNat <<< 2 =
        false.toNat ||| a.toNat <<< 1 ||| b.toNat <<< 2 ||| false.toNat <<< 3 := by decide
  rw [hcodeL] at haccL
  have houtL := caseStitch_wf values _ _ _ d0 e0 acc accL hwf hdx hdy hoblL haccL
  have hfold := foldlM_range_inv
    (f := midRowStep values threshold d0 y)
    (P := fun i st => st.1 = cornerB values threshold (y * d0 + d0 + i) ∧
      st.2.1 = cornerB values threshold (y * d0 + i) ∧ AccWF values st.2.2 ∧
      st.2.2.1.dx = d0 ∧ st.2.2.1.dy = e0)
    (fun i s s2 hP hs => midRowStep_wf values threshold d0 e0 y i s s2 hP hs)
    (d0 - 1) (decide (v ≥ threshold), decide (w ≥ threshold), accL)
    ⟨by rw [Nat.add_zero]; exact (getV_ok_cornerB threshold hv).symm,
     by rw [Nat.add_zero]; exact (getV_ok_cornerB threshold hw).symm,
     houtL.1, houtL.2.1, houtL.2.2⟩
    stM hstM
  have hoblR := cell_ok values threshold d0 e0 ((d0 - 1 : ℕ) : ℤ) (y : ℤ) (d0 - 1 + 1) (y + 1)
    stM.1 false false stM.2.1
    (by push_cast; ring) (by push_cast; ring)
    (fun _ _ hlt _ => absurd hlt (by omega))
    (by
      intro hne
      refine ⟨by omega, ?_⟩
      intro _ _ _
      have h1 : (y + 1 - 1) * d0 + (d0 - 1 + 1 - 1) = y * d0 + (d0 - 1) := by
        rw [Nat.add_sub_cancel, Nat.add_sub_cancel]
      have h2 : (y + 1) * d0 + (d0 - 1 + 1 - 1) = y * d0 + d0 + (d0 - 1) := by
        rw [Nat.add_sub_cancel]
        ring
      rw [h1, h2, ← hfold.1, ← hfold.2.1]
      exact fun hq => hne hq.symm)
    (fun hc => absurd rfl hc)
    (by
      intro _
      refine ⟨by omega, ?_⟩
      intro _ hlt _
      exact absurd hlt (by omega))
  have hcodeR : ∀ a b : Bool,
      a.toNat ||| b.toNat <<< 3 =
        a.toNat ||| false.toNat <<< 1 ||| false.toNat <<< 2 ||| b.toNat <<< 3 := by decide
  rw [hcodeR] at h
  exact caseStitch_wf values _ _ _ d0 e0 stM.2.2 acc2 hfold.2.2.1 hfold.2.2.2.1
    hfold.2.2.2.2 hoblR h

theorem lastRowStep_wf (values : List ℚ) (threshold : ℚ) (d0 e0 y : ℕ) (hye : e0 ≤ y + 1)
    (i : ℕ) (st st2 : Bool × IsoRingBuilder × List Ring)
    (hP : st.1 = cornerB values threshold (y * d0 + i) ∧ AccWF values st.2 ∧
      st.2.1.dx = d0 ∧ st.2.1.dy = e0)
    (h : lastRowStep values threshold d0 y st i = .ok st2) :
    st2.1 = cornerB values threshold (y * d0 + (i + 1)) ∧ AccWF values st2.2 ∧
      st2.2.1.dx = d0 ∧ st2.2.1.dy = e0 := by
  obtain ⟨ht, hwf, hdx, hdy⟩ := hP
  simp only [lastRowStep] at h
  obtain ⟨v, hv, h⟩ := except_bind_ok _ _ _ h
  obtain ⟨acc, hacc, h⟩ := except_bind_ok _ _ _ h
  have hst2 := pure_ok h
  subst hst2
  have hobl := cell_ok values threshold d0 e0 (i : ℤ) (y : ℤ) (i + 1) (y + 1)
    false false (decide (v ≥ threshold)) st.1
    (by push_cast; ring) (by push_cast; ring)
    (fun hc => absurd rfl hc)
    (by
      intro _
      refine ⟨by omega, ?_⟩
      intro _ hlt _
      exact absurd hlt (by omega))
    (fun _ _ hlt _ => absurd hlt (by omega))
    (by
      intro hne
      refine ⟨by omega, ?_⟩
      intro _ _ _
      have h1 : (y + 1 - 1) * d0 + (i + 1 - 1) = y * d0 + i := by
        rw [Nat.add_sub_cancel, Nat.add_sub_cancel]
      have h2 : (y + 1 - 1) * d0 + (i + 1) = y * d0 + i + 1 := by
        rw [Nat.add_sub_cancel]
        ring
      rw [h1, h2, ← ht, getV_ok_cornerB threshold hv]
      exact fun hq => hne hq.symm)
  have hcode : ∀ a b : Bool,
      a.toNat <<< 2 ||| b.toNat <<< 3 =
        false.toNat ||| false.toNat <<< 1 ||| a.toNat <<< 2 ||| b.toNat <<< 3 := by decide
  rw [hcode] at hacc
  have hout := caseStitch_wf values _ _ _ d0 e0 st.2 acc hwf hdx hdy hobl hacc
  refine ⟨?_, hout⟩
  rw [show y * d0 + (i + 1) = y * d0 + i + 1 by ring]
  exact (getV_ok_cornerB threshold hv).symm

/-- Master invariant for one sweep: starting from a fresh or cleared builder,
a successful `compute` leaves the grid dimensions untouched and every returned
ring is closed with all its points satisfying `PointOK`. -/
theorem compute_wf (b0 : IsoRingBuilder) (values : List ℚ) (threshold : ℚ)
    (b2 : IsoRingBuilder) (rings : List Ring)
    (hclean : b0.is_empty = false ∨ b0 = IsoRingBuilder.new b0.dx b0.dy)
    (h : compute b0 values threshold = .ok (b2, rings)) :
    b2.dx = b0.dx ∧ b2.dy = b0.dy ∧ ∀ r ∈ rings, RingOK b0.dx b0.dy values r := by
  simp only [compute] at h
  have hsplit : (if b0.is_empty = false then clear b0 else b0).f = [] ∧
      (if b0.is_empty = false then clear b0 else b0).fragment_by_start = [] ∧
      (if b0.is_empty = false then clear b0 else b0).fragment_by_end = [] ∧
      (if b0.is_empty = false then clear b0 else b0).dx = b0.dx ∧
      (if b0.is_empty = false then clear b0 else b0).dy = b0.dy := by
    rcases hclean with hc | hc
    · rw [if_pos hc]
      exact ⟨rfl, rfl, rfl, rfl, rfl⟩
    · have hemp : b0.is_empty = true := by
        rw [hc]
        rfl
      rw [if_neg (by simp [hemp])]
      rw [hc]
      exact ⟨rfl, rfl, rfl, rfl, rfl⟩
  generalize hgen : (if b0.is_empty = false then clear b0 else b0) = bI at h hsplit
  obtain ⟨hIf, hIs, hIe, hIdx, hIdy⟩ := hsplit
  have hIwf : AccWF values (bI, []) := by
    refine ⟨⟨?_, ?_, ?_⟩, ?_⟩
    · intro i fr hfind
      rw [hIf] at hfind
      exact absurd hfind (by simp [alistFind])
    · intro k i hfind
      rw [hIs] at hfind
      exact absurd hfind (by simp [alistFind])
    · intro k i hfind
      rw [hIe] at hfind
      exact absurd hfind (by simp [alistFind])
    · intro r hr
      exact absurd hr (List.not_mem_nil r)
  obtain ⟨v0, hv0, h⟩ := except_bind_ok _ _ _ h
  obtain ⟨acc1, hacc1, h⟩ := except_bind_ok _ _ _ h
  obtain ⟨fr, hfr, h⟩ := except_bind_ok _ _ _ h
  obtain ⟨acc2a, hacc2a, h⟩ := except_bind_ok _ _ _ h
  obtain ⟨acc3, hacc3, h⟩ := except_bind_ok _ _ _ h
  obtain ⟨v2, hv2, h⟩ := except_bind_ok _ _ _ h
  obtain ⟨acc4, hacc4, h⟩ := except_bind_ok _ _ _ h
  obtain ⟨lr, hlr, h⟩ := except_bind_ok _ _ _ h
  obtain ⟨acc5, hacc5, h⟩ := except_bind_ok _ _ _ h
  have hfin := pure_ok h
  -- the first special cell (-1, -1)
  have hobl1 := cell_ok values threshold bI.dx bI.dy (-1) (-1) 0 0
    false (decide (v0 ≥ threshold)) false false
    (by norm_num) (by norm_num)
    (fun _ h0 _ _ => absurd h0 (by omega))
    (fun hc => absurd rfl hc)
    (fun _ h0 _ _ => absurd h0 (by omega))
    (fun hc => absurd rfl hc)
  have hcode1 : ∀ a : Bool,
      a.toNat <<< 1 =
        false.toNat ||| a.toNat <<< 1 ||| false.toNat <<< 2 ||| false.toNat <<< 3 := by decide
  rw [hcode1] at hacc1
  have hout1 := caseStitch_wf values _ _ _ bI.dx bI.dy (bI, []) acc1 hIwf rfl rfl hobl1 hacc1
  -- the first row loop
  have hfold1 := foldlM_range_inv
    (f := firstRowStep values threshold)
    (P := fun i st => st.1 = cornerB values threshold i ∧ AccWF values st.2 ∧
      st.2.1.dx = bI.dx ∧ st.2.1.dy = bI.dy)
    (fun i s s2 hP hs => firstRowStep_wf values threshold bI.dx bI.dy i s s2 hP hs)
    (bI.dx - 1) (decide (v0 ≥ threshold), acc1)
    ⟨(getV_ok_cornerB threshold hv0).symm, hout1⟩ fr hfr
  -- the first row's right cell (dx - 1, -1)
  have hobl2 := cell_ok values threshold bI.dx bI.dy ((bI.dx - 1 : ℕ) : ℤ) (-1)
    (bI.dx - 1 + 1) 0 fr.1 false false false
    (by push_cast; ring) (by norm_num)
    (fun _ _ hlt _ => absurd hlt (by omega))
    (fun _ => ⟨by omega, fun h0 => absurd h0 (by omega)⟩)
    (fun _ h0 _ _ => absurd h0 (by omega))
    (fun hc => absurd rfl hc)
  have hcode2 : ∀ a : Bool,
      a.toNat = a.toNat ||| false.toNat <<< 1 ||| false.toNat <<< 2 ||| false.toNat <<< 3 := by
    decide
  rw [hcode2] at hacc2a
  have hout2 := caseStitch_wf values _ _ _ bI.dx bI.dy fr.2 acc2a hfold1.2.1
    hfold1.2.2.1 hfold1.2.2.2 hobl2 hacc2a
  -- the intermediate rows
  have hfold2 := foldlM_ok_inv
    (P := fun acc : IsoRingBuilder × List Ring => AccWF values acc ∧ acc.1.dx = bI.dx ∧
      acc.1.dy = bI.dy)
    (fun s a s2 hP hs => midRow_wf values threshold bI.dx bI.dy a s s2 hP.1 hP.2.1 hP.2.2 hs)
    (List.range (bI.dy - 1)) acc2a ⟨hout2.1, hout2.2.1, hout2.2.2⟩ acc3 hacc3
  -- the last row's left cell (-1, dy - 1)
  have hobl4 := cell_ok values threshold bI.dx bI.dy (-1) ((bI.dy - 1 : ℕ) : ℤ) 0
    (bI.dy - 1 + 1) false false (decide (v2 ≥ threshold)) false
    (by norm_num) (by push_cast; ring)
    (fun _ h0 _ _ => absurd h0 (by omega))
    (fun hc => absurd rfl hc)
    (fun _ _ hlt _ => absurd hlt (by omega))
    (fun _ => ⟨by omega, fun h0 => absurd h0 (by omega)⟩)
  have hcode4 : ∀ a : Bool,
      a.toNat <<< 2 =
        false.toNat ||| false.toNat <<< 1 ||| a.toNat <<< 2 ||| false.toNat <<< 3 := by decide
  rw [hcode4] at hacc4
  have hout4 := caseStitch_wf values _ _ _ bI.dx bI.dy acc3 acc4 hfold2.1
    hfold2.2.1 hfold2.2.2 hobl4 hacc4
  -- the last row loop
  have hfold3 := foldlM_range_inv
    (f := lastRowStep values threshold bI.dx (bI.dy - 1))
    (P := fun i st => st.1 = cornerB values threshold ((bI.dy - 1) * bI.dx + i) ∧
      AccWF values st.2 ∧ st.2.1.dx = bI.dx ∧ st.2.1.dy = bI.dy)
    (fun i s s2 hP hs =>
      lastRowStep_wf values threshold bI.dx bI.dy (bI.dy - 1) (by omega) i s s2 hP hs)
    (bI.dx - 1) (decide (v2 ≥ threshold), acc4)
    ⟨by rw [Nat.add_zero]; exact (getV_ok_cornerB threshold hv2).symm, hout4⟩ lr hlr
  -- the last row's right cell (dx - 1, dy - 1)
  have hobl5 := cell_ok values threshold bI.dx bI.dy ((bI.dx - 1 : ℕ) : ℤ)
    ((bI.dy - 1 : ℕ) : ℤ) (bI.dx - 1 + 1) (bI.dy - 1 + 1) false false false lr.1
    (by push_cast; ring) (by push_cast; ring)
    (fun hc => absurd rfl hc)
    (fun _ => ⟨by omega, fun _ hlt _ => absurd hlt (by omega)⟩)
    (fun hc => absurd rfl hc)
    (fun _ => ⟨by omega, fun _ hlt _ => absurd hlt (by omega)⟩)
  have hcode5 : ∀ a : Bool,
      a.toNat <<< 3 =
        false.toNat ||| false.toNat <<< 1 ||| false.toNat <<< 2 ||| a.toNat <<< 3 := by decide
  rw [hcode5] at hacc5
  have hout5 := caseStitch_wf values _ _ _ bI.dx bI.dy lr.2 acc5 hfold3.2.1
    hfold3.2.2.1 hfold3.2.2.2 hobl5 hacc5
  -- conclude
  have hb2 : b2 = { acc5.1 with is_empty := false } := congrArg Prod.fst hfin.symm
  have hrings : rings = acc5.2 := congrArg Prod.snd hfin.symm
  subst hb2
  subst hrings
  refine ⟨?_, ?_, ?_⟩
  · show acc5.1.dx = b0.dx
    rw [hout5.2.1, hIdx]
  · show acc5.1.dy = b0.dy
    rw [hout5.2.2, hIdy]
  · intro r hr
    have := hout5.1.2 r hr
    rwa [hout5.2.1, hout5.2.2, hIdx, hIdy] at this

/-- Claim C1: for every grid (`values` of length `dx*dy`, `dx, dy ≥ 1`) and
every threshold, every ring returned by `IsoRingBuilder::compute` is closed:
the endpoint key of its first point equals the endpoint key of its last point
under the key function `index`. -/
theorem c1_rings_closed (dx dy : ℕ) (values : List ℚ) (threshold : ℚ)
    (b2 : IsoRingBuilder) (rings : List Ring)
    (hdx : 1 ≤ dx) (hdy : 1 ≤ dy) (hlen : values.length = dx * dy)
    (h : compute (IsoRingBuilder.new dx dy) values threshold = .ok (b2, rings)) :
    ∀ r ∈ rings, ∃ p q, r.head? = some p ∧ r.getLast? = some q ∧
      indexKey dx p = indexKey dx q := by
  have hwf := compute_wf (IsoRingBuilder.new dx dy) values threshold b2 rings (Or.inr rfl) h
  intro r hr
  exact (hwf.2.2 r hr).1

/-- Witness for C1: the single ring computed on the 2-by-2 grid `[1,0,0,0]`
at threshold `1/2` is closed. -/
theorem c1_witness :
    ∃ p q,
      ([((1 : ℚ), (1 : ℚ)/2), (1/2, 0), (0, 1/2), (1/2, 1), (1, 1/2)] : Ring).head? = some p ∧
      ([((1 : ℚ), (1 : ℚ)/2), (1/2, 0), (0, 1/2), (1/2, 1), (1, 1/2)] : Ring).getLast? = some q ∧
      indexKey 2 p = indexKey 2 q :=
  c1_rings_closed 2 2 [1, 0, 0, 0] (1/2) ⟨[], [], [], 1, 2, 2, false⟩
    [[((1 : ℚ), (1 : ℚ)/2), (1/2, 0), (0, 1/2), (1/2, 1), (1, 1/2)]]
    (by norm_num) (by norm_num) rfl (by with_unfolding_all rfl)
    [((1 : ℚ), (1 : ℚ)/2), (1/2, 0), (0, 1/2), (1/2, 1), (1, 1/2)]
    (List.mem_singleton.mpr rfl)

/-- Claim C9: fragments still open at the end of a sweep are silently dropped:
`compute` reports no error for them, the `clear` at the start of the next
sweep discards them (so a sweep from any dirty builder equals the sweep from a
fresh builder with the same dimensions, and leftovers never reach any result),
and the rings a sweep does return are exactly the closed ones. -/
theorem c9_leftover_fragments_dropped :
    (∀ (b : IsoRingBuilder) (values : List ℚ) (t : ℚ), b.is_empty = false →
      compute b values t = compute (IsoRingBuilder.new b.dx b.dy) values t) ∧
    (∀ (b : IsoRingBuilder) (values : List ℚ) (t : ℚ) (b2 : IsoRingBuilder)
      (rings : List Ring),
      b.is_empty = false ∨ b = IsoRingBuilder.new b.dx b.dy →
      compute b values t = .ok (b2, rings) →
      ∀ r ∈ rings, ∃ p q, r.head? = some p ∧ r.getLast? = some q ∧
        indexKey b.dx p = indexKey b.dx q) := by
  constructor
  · intro b values t hne
    have hcb : clear b = IsoRingBuilder.new b.dx b.dy := by
      cases b
      rfl
    simp only [compute]
    rw [if_pos hne, if_neg (by simp [IsoRingBuilder.new]), hcb]
  · intro b values t b2 rings hclean h
    have hwf := compute_wf b values t b2 rings hclean h
    intro r hr
    exact (hwf.2.2 r hr).1

/-- Witness for C9: a dirty builder holding one leftover open fragment sweeps
the 2-by-2 grid exactly as a fresh builder does, and the resulting ring is
closed. -/
theorem c9_witness :
    compute ⟨[(5, 0)], [(7, 0)], [(0, ⟨7, 5, [(0, 0), (1, 1)]⟩)], 1, 2, 2, false⟩
        [1, 0, 0, 0] (1/2) =
      compute (IsoRingBuilder.new 2 2) [1, 0, 0, 0] (1/2) ∧
    (∃ p q,
      ([((1 : ℚ), (1 : ℚ)/2), (1/2, 0), (0, 1/2), (1/2, 1), (1, 1/2)] : Ring).head? = some p ∧
      ([((1 : ℚ), (1 : ℚ)/2), (1/2, 0), (0, 1/2), (1/2, 1), (1, 1/2)] : Ring).getLast? = some q ∧
      indexKey 2 p = indexKey 2 q) :=
  ⟨c9_leftover_fragments_dropped.1
      ⟨[(5, 0)], [(7, 0)], [(0, ⟨7, 5, [(0, 0), (1, 1)]⟩)], 1, 2, 2, false⟩
      [1, 0, 0, 0] (1/2) rfl,
   c9_leftover_fragments_dropped.2 (IsoRingBuilder.new 2 2) [1, 0, 0, 0] (1/2)
      ⟨[], [], [], 1, 2, 2, false⟩
      [[((1 : ℚ), (1 : ℚ)/2), (1/2, 0), (0, 1/2), (1/2, 1), (1, 1/2)]]
      (Or.inr rfl) (by with_unfolding_all rfl)
      [((1 : ℚ), (1 : ℚ)/2), (1/2, 0), (0, 1/2), (1/2, 1), (1, 1/2)]
      (List.mem_singleton.mpr rfl)⟩

theorem smoothPt_id_of_guards (dx dy : ℕ) (values : List ℚ) (value : ℚ) (p : Pt)
    (hx : ¬ (0 < p.1 ∧ p.1 < (dx : ℚ) ∧ |(asUsize p.1 : ℚ) - p.1| < EPS))
    (hy : ¬ (0 < p.2 ∧ p.2 < (dy : ℚ) ∧ |(asUsize p.2 : ℚ) - p.2| < EPS)) :
    smoothPt dx dy values value p = p := by
  simp only [smoothPt]
  rw [if_neg hx, if_neg hy]
  split
  · rfl
  · rfl

theorem boundary_unchanged (dx dy : ℕ) (values : List ℚ) (value : ℚ) (p : Pt)
    (hform : PtForm p)
    (hb : p.1 = 0 ∨ p.1 = (dx : ℚ) ∨ p.2 = 0 ∨ p.2 = (dy : ℚ)) :
    smoothPt dx dy values value p = p := by
  rcases hform with ⟨k, m, rfl⟩ | ⟨k, m, rfl⟩ <;> dsimp only at hb
  · refine smoothPt_id_of_guards dx dy values value _ ?_ ?_
    · rintro ⟨hx0, hxd, _⟩
      dsimp only at hx0 hxd
      rcases hb with hb | hb | hb | hb
      · rw [hb] at hx0
        exact lt_irrefl _ hx0
      · rw [hb] at hxd
        exact lt_irrefl _ hxd
      · have hpos : (0 : ℚ) < (m : ℚ) + 1/2 := by positivity
        rw [hb] at hpos
        exact lt_irrefl _ hpos
      · have h2 : ((2 * m + 1 : ℕ) : ℚ) = ((2 * dy : ℕ) : ℚ) := by
          push_cast
          push_cast at hb
          linarith
        have h3 : 2 * m + 1 = 2 * dy := by exact_mod_cast h2
        omega
    · rintro ⟨_, _, heps⟩
      dsimp only at heps
      rw [asUsize_add_half] at heps
      exact half_not_lt_EPS _ (abs_sub_half m) heps
  · refine smoothPt_id_of_guards dx dy values value _ ?_ ?_
    · rintro ⟨_, _, heps⟩
      dsimp only at heps
      rw [asUsize_add_half] at heps
      exact half_not_lt_EPS _ (abs_sub_half k) heps
    · rintro ⟨hy0, hyd, _⟩
      dsimp only at hy0 hyd
      rcases hb with hb | hb | hb | hb
      · have hpos : (0 : ℚ) < (k : ℚ) + 1/2 := by positivity
        rw [hb] at hpos
        exact lt_irrefl _ hpos
      · have h2 : ((2 * k + 1 : ℕ) : ℚ) = ((2 * dx : ℕ) : ℚ) := by
          push_cast
          push_cast at hb
          linarith
        have h3 : 2 * k + 1 = 2 * dx := by exact_mod_cast h2
        omega
      · rw [hb] at hy0
        exact lt_irrefl _ hy0
      · rw [hb] at hyd
        exact lt_irrefl _ hyd

/-- The smoothing-safety property over the idealized (non-wrapping) sweep
`compute`: every sweep-produced ring point lying on the grid boundary is left
unchanged by `smoooth_linear`'s per-point update, and at every sweep-produced
ring point the two bracketing samples of an interpolation branch whose guards
pass are unequal, so that schedule never feeds the guard-free division a zero
denominator.  `c4_i32_wrap_bug` below shows the property fails for the i32
schedule the program actually runs once `dx ≥ 2^31`. -/
theorem smoothing_safe_unbounded (dx dy : ℕ) (values : List ℚ) (threshold : ℚ)
    (b2 : IsoRingBuilder) (rings : List Ring)
    (hdx : 1 ≤ dx) (hdy : 1 ≤ dy) (hlen : values.length = dx * dy)
    (h : compute (IsoRingBuilder.new dx dy) values threshold = .ok (b2, rings))
    (r : Ring) (hr : r ∈ rings) (p : Pt) (hp : p ∈ r) :
    ((p.1 = 0 ∨ p.1 = (dx : ℚ) ∨ p.2 = 0 ∨ p.2 = (dy : ℚ)) →
      smoothPt dx dy values threshold p = p) ∧
    (asUsize p.2 * dx + asUsize p.1 < values.length → 0 < p.1 → p.1 < (dx : ℚ) →
      |(asUsize p.1 : ℚ) - p.1| < EPS →
      values.getD (asUsize p.2 * dx + asUsize p.1) 0 -
        values.getD (asUsize p.2 * dx + asUsize p.1 - 1) 0 ≠ 0) ∧
    (asUsize p.2 * dx + asUsize p.1 < values.length → 0 < p.2 → p.2 < (dy : ℚ) →
      |(asUsize p.2 : ℚ) - p.2| < EPS →
      values.getD (asUsize p.2 * dx + asUsize p.1) 0 -
        values.getD ((asUsize p.2 - 1) * dx + asUsize p.1) 0 ≠ 0) := by
  have hwf := compute_wf (IsoRingBuilder.new dx dy) values threshold b2 rings (Or.inr rfl) h
  obtain ⟨hxs, hys, hform⟩ := (hwf.2.2 r hr).2 p hp
  refine ⟨?_, ?_, ?_⟩
  · intro hb
    exact boundary_unchanged dx dy values threshold p hform hb
  · intro h1 h2 h3 h4
    exact sub_ne_zero_of_ne (hxs h1 h2 h3 h4)
  · intro h1 h2 h3 h4
    exact sub_ne_zero_of_ne (hys h1 h2 h3 h4)

/-- Example for the idealized smoothing safety: on the 2-by-2 grid `[1,0,0,0]`
at threshold `1/2`, the boundary ring point `(0, 1/2)` is left unchanged by
smoothing. -/
theorem smoothing_safe_unbounded_example :
    (((0 : ℚ), (1 : ℚ)/2).1 = 0 ∨ ((0 : ℚ), (1 : ℚ)/2).1 = ((2 : ℕ) : ℚ) ∨
      ((0 : ℚ), (1 : ℚ)/2).2 = 0 ∨ ((0 : ℚ), (1 : ℚ)/2).2 = ((2 : ℕ) : ℚ)) ∧
    smoothPt 2 2 [1, 0, 0, 0] (1/2) ((0 : ℚ), (1 : ℚ)/2) = ((0 : ℚ), (1 : ℚ)/2) := by
  have hc4 := smoothing_safe_unbounded 2 2 [1, 0, 0, 0] (1/2) ⟨[], [], [], 1, 2, 2, false⟩
    [[((1 : ℚ), (1 : ℚ)/2), (1/2, 0), (0, 1/2), (1/2, 1), (1, 1/2)]]
    (by norm_num) (by norm_num) rfl (by with_unfolding_all rfl)
    [((1 : ℚ), (1 : ℚ)/2), (1/2, 0), (0, 1/2), (1/2, 1), (1, 1/2)]
    (List.mem_singleton.mpr rfl)
    ((0 : ℚ), (1 : ℚ)/2) (by norm_num)
  exact ⟨Or.inl rfl, hc4.1 (Or.inl rfl)⟩

/-! ### Error taxonomy: only `contours` can produce `badDimension` -/

theorem except_bind_error {ε α β : Type} (x : Except ε α) (g : α → Except ε β) (e : ε)
    (h : (x >>= g) = .error e) : x = .error e ∨ ∃ a, x = .ok a ∧ g a = .error e := by
  cases x with
  | ok a => exact Or.inr ⟨a, rfl, h⟩
  | error e2 =>
    left
    have h2 : e2 = e := by
      simpa [Bind.bind, Except.bind] using h
    rw [h2]

theorem foldlM_nbd {σ α : Type} (f : σ → α → Except ErrKind σ) :
    ∀ l : List α, (∀ s a, a ∈ l → f s a ≠ .error .badDimension) →
    ∀ s : σ, l.foldlM f s ≠ .error .badDimension := by
  intro l
  induction l with
  | nil =>
    intro _ s h
    rw [List.foldlM_nil] at h
    injection h
  | cons a t ih =>
    intro hstep s h
    rw [List.foldlM_cons] at h
    rcases except_bind_error _ _ _ h with h1 | ⟨s1, h1, h2⟩
    · exact hstep s a (List.mem_cons_self a t) h1
    · exact ih (fun s b hb => hstep s b (List.mem_cons_of_mem a hb)) s1 h2

theorem getV_nb (values : List ℚ) (i : ℕ) : getV values i ≠ .error .badDimension := by
  intro h
  rw [getV] at h
  split at h
  · injection h
  · injection h with h2
    cases h2

theorem stitch_nb (line : Pt × Pt) (x y : ℤ) (b : IsoRingBuilder) (res : List Ring) :
    stitch line x y b res ≠ .error .badDimension := by
  intro h
  simp only [stitch] at h
  repeat' split at h
  all_goals first
    | (injection h with h2
       cases h2)
    | injection h

theorem caseStitch_nb (code : ℕ) (x y : ℤ) (acc : IsoRingBuilder × List Ring) :
    caseStitch code x y acc ≠ .error .badDimension := by
  intro h
  rw [caseStitch] at h
  exact foldlM_nbd _ _ (fun s seg _ => stitch_nb seg x y s.1 s.2) _ h

theorem firstRowStep_nb (values : List ℚ) (threshold : ℚ)
    (st : Bool × IsoRingBuilder × List Ring) (x : ℕ) :
    firstRowStep values threshold st x ≠ .error .badDimension := by
  intro h
  rw [firstRowStep] at h
  rcases except_bind_error _ _ _ h with h1 | ⟨v, hv, h⟩
  · exact getV_nb _ _ h1
  rcases except_bind_error _ _ _ h with h1 | ⟨a, ha, h⟩
  · exact caseStitch_nb _ _ _ _ h1
  · simp [Pure.pure, Except.pure] at h

theorem midRowStep_nb (values : List ℚ) (threshold : ℚ) (dx y : ℕ)
    (st : Bool × Bool × IsoRingBuilder × List Ring) (x : ℕ) :
    midRowStep values threshold dx y st x ≠ .error .badDimension := by
  intro h
  rw [midRowStep] at h
  rcases except_bind_error _ _ _ h with h1 | ⟨v, hv, h⟩
  · exact getV_nb _ _ h1
  rcases except_bind_error _ _ _ h with h1 | ⟨w, hw, h⟩
  · exact getV_nb _ _ h1
  rcases except_bind_error _ _ _ h with h1 | ⟨a, ha, h⟩
  · exact caseStitch_nb _ _ _ _ h1
  · simp [Pure.pure, Except.pure] at h

theorem midRow_nb (values : List ℚ) (threshold : ℚ) (dx : ℕ)
    (acc : IsoRingBuilder × List Ring) (y : ℕ) :
    midRow values threshold dx acc y ≠ .error .badDimension := by
  intro h
  rw [midRow] at h
  rcases except_bind_error _ _ _ h with h1 | ⟨v, hv, h⟩
  · exact getV_nb _ _ h1
  rcases except_bind_error _ _ _ h with h1 | ⟨w, hw, h⟩
  · exact getV_nb _ _ h1
  rcases except_bind_error _ _ _ h with h1 | ⟨a, ha, h⟩
  · exact caseStitch_nb _ _ _ _ h1
  rcases except_bind_error _ _ _ h with h1 | ⟨st, hst, h⟩
  · exact foldlM_nbd _ _ (fun s i _ => midRowStep_nb _ _ _ _ _ _) _ h1
  · exact caseStitch_nb _ _ _ _ h

theorem lastRowStep_nb (values : List ℚ) (threshold : ℚ) (dx y : ℕ)
    (st : Bool × IsoRingBuilder × List Ring) (x : ℕ) :
    lastRowStep values threshold dx y st x ≠ .error .badDimension := by
  intro h
  rw [lastRowStep] at h
  rcases except_bind_error _ _ _ h with h1 | ⟨v, hv, h⟩
  · exact getV_nb _ _ h1
  rcases except_bind_error _ _ _ h with h1 | ⟨a, ha, h⟩
  · exact caseStitch_nb _ _ _ _ h1
  · simp [Pure.pure, Except.pure] at h

theorem compute_nb (b0 : IsoRingBuilder) (values : List ℚ) (threshold : ℚ) :
    compute b0 values threshold ≠ .error .badDimension := by
  intro h
  rw [compute] at h
  rcases except_bind_error _ _ _ h with h1 | ⟨v, hv, h⟩
  · exact getV_nb _ _ h1
  rcases except_bind_error _ _ _ h with h1 | ⟨a1, ha1, h⟩
  · exact caseStitch_nb _ _ _ _ h1
  rcases except_bind_error _ _ _ h with h1 | ⟨fr, hfr, h⟩
  · exact foldlM_nbd _ _ (fun s i _ => firstRowStep_nb _ _ _ _) _ h1
  rcases except_bind_error _ _ _ h with h1 | ⟨a2, ha2, h⟩
  · exact caseStitch_nb _ _ _ _ h1
  rcases except_bind_error _ _ _ h with h1 | ⟨a3, ha3, h⟩
  · exact foldlM_nbd _ _ (fun s i _ => midRow_nb _ _ _ _ _) _ h1
  rcases except_bind_error _ _ _ h with h1 | ⟨v2, hv2, h⟩
  · exact getV_nb _ _ h1
  rcases except_bind_error _ _ _ h with h1 | ⟨a4, ha4, h⟩
  · exact caseStitch_nb _ _ _ _ h1
  rcases except_bind_error _ _ _ h with h1 | ⟨lr, hlr, h⟩
  · exact foldlM_nbd _ _ (fun s i _ => lastRowStep_nb _ _ _ _ s i) _ h1
  rcases except_bind_error _ _ _ h with h1 | ⟨a5, ha5, h⟩
  · exact caseStitch_nb _ _ _ _ h1
  · simp [Pure.pure, Except.pure] at h

theorem contour_nb (c : ContourBuilder) (containsFn : Ring → Ring → ℤ)
    (values : List ℚ) (threshold : ℚ) (iso : IsoRingBuilder) :
    contour c containsFn values threshold iso ≠ .error .badDimension := by
  intro h
  rw [contour] at h
  rcases except_bind_error _ _ _ h with h1 | ⟨r, hr, h2⟩
  · exact compute_nb _ _ _ h1
  · simp [Pure.pure, Except.pure] at h2

/-- What the dimension check actually decides: `contours` returns the
dimension-mismatch error exactly when length and `dx * dy` differ as u32
values (mod `2^32`) — before any per-threshold sweep runs, with no partial
results — and when they agree mod `2^32`, no dimension-mismatch error is ever
returned (by the error taxonomy above, `badDimension` arises nowhere else). -/
theorem dimension_check_u32 (c : ContourBuilder) (containsFn : Ring → Ring → ℤ)
    (values : List ℚ) (thresholds : List ℚ) :
    (values.length % 2 ^ 32 ≠ (c.dx * c.dy) % 2 ^ 32 →
      contours c containsFn values thresholds = .error .badDimension) ∧
    (values.length % 2 ^ 32 = (c.dx * c.dy) % 2 ^ 32 →
      contours c containsFn values thresholds ≠ .error .badDimension) := by
  constructor
  · intro hne
    rw [contours, if_pos hne]
  · intro heq h
    rw [contours, if_neg (fun hc => hc heq)] at h
    rcases except_bind_error _ _ _ h with h1 | ⟨r, hr, h2⟩
    · refine foldlM_nbd _ _ ?_ _ h1
      intro s t _ hstep
      rcases except_bind_error _ _ _ hstep with h3 | ⟨fi, hfi, h4⟩
      · exact contour_nb _ _ _ _ _ h3
      · simp [Pure.pure, Except.pure] at h4
    · simp [Pure.pure, Except.pure] at h2

/-- Example for the u32 dimension check: a 3-sample slice on a 2-by-2 builder
is rejected with the dimension error; the full 4-sample slice is not. -/
theorem dimension_check_u32_example :
    contours ⟨2, 2, false⟩ (fun _ _ => -1) [1, 0, 0] [1/2] = .error .badDimension ∧
    contours ⟨2, 2, false⟩ (fun _ _ => -1) [1, 0, 0, 0] [1/2] ≠ .error .badDimension :=
  ⟨(dimension_check_u32 ⟨2, 2, false⟩ (fun _ _ => -1) [1, 0, 0] [1/2]).1 (by decide),
   (dimension_check_u32 ⟨2, 2, false⟩ (fun _ _ => -1) [1, 0, 0, 0] [1/2]).2 rfl⟩

/-- Claim C2: when `stitch` finds a fragment `f` whose end key matches the
segment's start key and a fragment `g` whose start key matches the segment's
end key, then: if the two are the same fragment it appends the segment's end
point to `f`'s ring, removes the fragment from all three stores and pushes the
ring onto the result list; if they differ it merges them into one fragment
whose ring is `f`'s point sequence followed by `g`'s, whose start key is `f`'s
original start and end key `g`'s original end, re-keys both endpoint maps to
the merged fragment's fresh slab key, and removes the two originals. -/
theorem c2_stitch_close_merge (line : Pt × Pt) (x y : ℤ) (b : IsoRingBuilder)
    (result : List Ring) (f_ix g_ix : ℕ) (f g : Fragment)
    (hse : alistFind b.fragment_by_end (indexKey b.dx (translate line.1 x y)) = some f_ix)
    (hss : alistFind b.fragment_by_start (indexKey b.dx (translate line.2 x y)) = some g_ix)
    (hf : alistFind b.f f_ix = some f)
    (hg : f_ix ≠ g_ix → alistFind (alistRemove b.f f_ix) g_ix = some g) :
    (f_ix = g_ix →
      stitch line x y b result = .ok
        ({ b with
            fragment_by_end :=
              alistRemove b.fragment_by_end (indexKey b.dx (translate line.1 x y)),
            fragment_by_start :=
              alistRemove b.fragment_by_start (indexKey b.dx (translate line.2 x y)),
            f := alistRemove b.f f_ix },
          result ++ [f.ring ++ [translate line.2 x y]])) ∧
    (f_ix ≠ g_ix →
      stitch line x y b result = .ok
        ({ b with
            fragment_by_end :=
              alistInsert (alistRemove b.fragment_by_end
                (indexKey b.dx (translate line.1 x y))) g.stop b.next,
            fragment_by_start :=
              alistInsert (alistRemove b.fragment_by_start
                (indexKey b.dx (translate line.2 x y))) f.start b.next,
            f := alistInsert (alistRemove (alistRemove b.f f_ix) g_ix) b.next
                  ⟨f.start, g.stop, f.ring ++ g.ring⟩,
            next := b.next + 1 },
          result)) := by
  constructor
  · intro he
    simp only [stitch]
    rw [hse]
    simp only []
    rw [hss]
    simp only []
    rw [if_pos he, hf]
  · intro hne
    simp only [stitch]
    rw [hse]
    simp only []
    rw [hss]
    simp only []
    rw [if_neg hne, hf]
    simp only []
    rw [hg hne]

/-- Witness for C2 at concrete inputs: the cell segment from `(1, 3/2)` to
`(1/2, 1)` (keys 20 and 13 for `dx = 2`) closes a ring when one fragment ends
at 20 and starts at 13, and merges two fragments when the end-match and the
start-match are distinct. -/
theorem c2_witness :
    stitch ((1, 3/2), (1/2, 1)) 0 0
        ⟨[(13, 0)], [(20, 0)], [(0, ⟨13, 20, [((1 : ℚ)/2, (1 : ℚ)), (1, 3/2)]⟩)],
          1, 2, 2, false⟩ [] = .ok
      ({ (⟨[(13, 0)], [(20, 0)], [(0, ⟨13, 20, [((1 : ℚ)/2, (1 : ℚ)), (1, 3/2)]⟩)],
            1, 2, 2, false⟩ : IsoRingBuilder) with
          fragment_by_end := alistRemove [(20, 0)] (indexKey 2 (translate (1, 3/2) 0 0)),
          fragment_by_start := alistRemove [(13, 0)] (indexKey 2 (translate (1/2, 1) 0 0)),
          f := alistRemove [(0, ⟨13, 20, [((1 : ℚ)/2, (1 : ℚ)), (1, 3/2)]⟩)] 0 },
        [] ++ [[((1 : ℚ)/2, (1 : ℚ)), (1, 3/2)] ++ [translate (1/2, 1) 0 0]]) ∧
    stitch ((1, 3/2), (1/2, 1)) 0 0
        ⟨[(13, 1), (5, 0)], [(20, 0), (9, 1)],
          [(0, ⟨5, 20, [((0 : ℚ), (0 : ℚ))]⟩), (1, ⟨13, 9, [((1 : ℚ), (1 : ℚ))]⟩)],
          2, 2, 2, false⟩ [] = .ok
      ({ (⟨[(13, 1), (5, 0)], [(20, 0), (9, 1)],
            [(0, ⟨5, 20, [((0 : ℚ), (0 : ℚ))]⟩), (1, ⟨13, 9, [((1 : ℚ), (1 : ℚ))]⟩)],
            2, 2, 2, false⟩ : IsoRingBuilder) with
          fragment_by_end :=
            alistInsert (alistRemove [(20, 0), (9, 1)]
              (indexKey 2 (translate (1, 3/2) 0 0))) 9 2,
          fragment_by_start :=
            alistInsert (alistRemove [(13, 1), (5, 0)]
              (indexKey 2 (translate (1/2, 1) 0 0))) 5 2,
          f := alistInsert (alistRemove (alistRemove
                [(0, ⟨5, 20, [((0 : ℚ), (0 : ℚ))]⟩), (1, ⟨13, 9, [((1 : ℚ), (1 : ℚ))]⟩)] 0) 1) 2
                ⟨5, 9, [((0 : ℚ), (0 : ℚ))] ++ [((1 : ℚ), (1 : ℚ))]⟩,
          next := 2 + 1 },
        []) :=
  ⟨(c2_stitch_close_merge ((1, 3/2), (1/2, 1)) 0 0
      ⟨[(13, 0)], [(20, 0)], [(0, ⟨13, 20, [((1 : ℚ)/2, (1 : ℚ)), (1, 3/2)]⟩)],
        1, 2, 2, false⟩ [] 0 0
      ⟨13, 20, [((1 : ℚ)/2, (1 : ℚ)), (1, 3/2)]⟩ ⟨0, 0, []⟩
      (by with_unfolding_all rfl) (by with_unfolding_all rfl) rfl
      (fun hc => absurd rfl hc)).1 rfl,
   (c2_stitch_close_merge ((1, 3/2), (1/2, 1)) 0 0
      ⟨[(13, 1), (5, 0)], [(20, 0), (9, 1)],
        [(0, ⟨5, 20, [((0 : ℚ), (0 : ℚ))]⟩), (1, ⟨13, 9, [((1 : ℚ), (1 : ℚ))]⟩)],
        2, 2, 2, false⟩ [] 0 1
      ⟨5, 20, [((0 : ℚ), (0 : ℚ))]⟩ ⟨13, 9, [((1 : ℚ), (1 : ℚ))]⟩
      (by with_unfolding_all rfl) (by with_unfolding_all rfl) rfl
      (fun hc => rfl)).2 (by decide)⟩

/-! ### The hole-attachment refinement -/

theorem partition_foldl :
    ∀ (rs : List Ring) (o : List (List Ring)) (hs : List Ring),
      rs.foldl (fun (acc : List (List Ring) × List Ring) ring =>
          if area ring > 0 then (acc.1 ++ [[ring]], acc.2) else (acc.1, acc.2 ++ [ring]))
        (o, hs)
      = (o ++ (rs.filter (fun r => decide (area r > 0))).map (fun r => [r]),
         hs ++ rs.filter (fun r => decide (¬ area r > 0))) := by
  intro rs
  induction rs with
  | nil => intro o hs; simp
  | cons r t ih =>
    intro o hs
    rw [List.foldl_cons]
    by_cases hr : area r > 0
    · rw [if_pos hr, ih]
      simp [List.filter_cons, hr]
    · rw [if_neg hr, ih]
      simp [List.filter_cons, hr, not_lt.mp hr]

theorem foldl_preserve {α β : Type} (f : β → α → β) (P : β → Prop)
    (hstep : ∀ b a, P b → P (f b a)) :
    ∀ (l : List α) (b : β), P b → P (l.foldl f b) := by
  intro l
  induction l with
  | nil =>
    intro b hb
    rw [List.foldl_nil]
    exact hb
  | cons a tl ih =>
    intro b hb
    rw [List.foldl_cons]
    exact ih _ (hstep b a hb)

theorem contour_ok (c : ContourBuilder) (cf : Ring → Ring → ℤ) (values : List ℚ)
    (t : ℚ) (iso b2 : IsoRingBuilder) (rings : List Ring)
    (hc : compute iso values t = .ok (b2, rings)) :
    ∃ feat iso2, contour c cf values t iso = .ok (feat, iso2) := by
  rw [contour, hc]
  exact ⟨_, _, rfl⟩

theorem contour_polygons_eq (c : ContourBuilder) (cf : Ring → Ring → ℤ)
    (values : List ℚ) (t : ℚ) (iso b2 : IsoRingBuilder) (rings : List Ring)
    (feat : Feature) (iso2 : IsoRingBuilder)
    (hc : compute iso values t = .ok (b2, rings))
    (h : contour c cf values t iso = .ok (feat, iso2)) :
    feat.value = t ∧ iso2 = b2 ∧
    feat.polygons = specPolygons cf (rings.map
      (fun r => if c.smooth then smoooth_linear c.dx c.dy r values t else r)) := by
  rw [contour, hc] at h
  simp only [Bind.bind, Except.bind, Pure.pure, Except.pure, Except.ok.injEq,
    Prod.mk.injEq] at h
  obtain ⟨h1, h2⟩ := h
  subst h1
  subst h2
  refine ⟨rfl, rfl, ?_⟩
  dsimp only
  have hm : rings.foldl (fun (acc : List (List Ring) × List Ring) ring =>
      let ring := if c.smooth then smoooth_linear c.dx c.dy ring values t else ring
      if area ring > 0 then (acc.1 ++ [[ring]], acc.2) else (acc.1, acc.2 ++ [ring]))
      ([], [])
      = (specOuters (rings.map
          (fun r => if c.smooth then smoooth_linear c.dx c.dy r values t else r)),
         specHoles (rings.map
          (fun r => if c.smooth then smoooth_linear c.dx c.dy r values t else r))) := by
    have hfm := List.foldl_map
      (fun r => if c.smooth then smoooth_linear c.dx c.dy r values t else r)
      (fun (a : List (List Ring) × List Ring) (ring : Ring) =>
        if area ring > 0 then (a.1 ++ [[ring]], a.2) else (a.1, a.2 ++ [ring]))
      rings (([], []) : List (List Ring) × List Ring)
    have hpt := partition_foldl (rings.map
      (fun r => if c.smooth then smoooth_linear c.dx c.dy r values t else r)) [] []
    exact hfm.symm.trans (hpt.trans (by simp [specOuters, specHoles]))
  rw [hm, specPolygons]

theorem attachHole_first (cf : Ring → Ring → ℤ) (hole : Ring) :
    ∀ (pre : List (List Ring)) (poly : List Ring) (post : List (List Ring)),
      (∀ q ∈ pre, cf (q.headD []) hole = -1) → cf (poly.headD []) hole ≠ -1 →
      attachHole cf (pre ++ poly :: post) hole = pre ++ (poly ++ [hole]) :: post := by
  intro pre
  induction pre with
  | nil =>
    intro poly post _ hcont
    rw [List.nil_append, List.nil_append]
    simp only [attachHole]
    rw [if_pos hcont]
  | cons q pre ih =>
    intro poly post hpre hcont
    have hq : cf (q.headD []) hole = -1 := hpre q (List.mem_cons_self q pre)
    rw [List.cons_append, List.cons_append]
    simp only [attachHole]
    rw [if_neg (fun hc => hc hq), ih poly post
      (fun r hr => hpre r (List.mem_cons_of_mem q hr)) hcont]

theorem attachHole_none (cf : Ring → Ring → ℤ) (h0 : Ring)
    (hall : ∀ o, cf o h0 = -1) :
    ∀ polys, attachHole cf polys h0 = polys := by
  intro polys
  induction polys with
  | nil => rfl
  | cons poly rest ih =>
    simp only [attachHole]
    rw [if_neg (fun hc => hc (hall _)), ih]

theorem attachHole_not_mem (cf : Ring → Ring → ℤ) (h0 h1 : Ring)
    (hall : ∀ o, cf o h0 = -1) :
    ∀ polys, (∀ poly ∈ polys, h0 ∉ poly) →
      ∀ poly ∈ attachHole cf polys h1, h0 ∉ poly := by
  by_cases he : h1 = h0
  · intro polys hP
    rw [he, attachHole_none cf h0 hall polys]
    exact hP
  · intro polys
    induction polys with
    | nil =>
      intro _ poly hpoly
      simp [attachHole] at hpoly
    | cons p rest ih =>
      intro hP poly hpoly
      simp only [attachHole] at hpoly
      by_cases hcont : cf (p.headD []) h1 ≠ -1
      · rw [if_pos hcont] at hpoly
        rcases List.mem_cons.mp hpoly with hh | hh
        · subst hh
          intro hmem
          rcases List.mem_append.mp hmem with hm | hm
          · exact hP p (List.mem_cons_self p rest) hm
          · exact he (List.mem_singleton.mp hm).symm
        · exact hP poly (List.mem_cons_of_mem p hh)
      · rw [if_neg hcont] at hpoly
        rcases List.mem_cons.mp hpoly with hh | hh
        · rw [hh]
          exact hP p (List.mem_cons_self p rest)
        · exact ih (fun q hq => hP q (List.mem_cons_of_mem p hq)) poly hh

/-- Claim C7: for each threshold, rings with positive signed area each become
the outer boundary of their own polygon, rings with non-positive signed area
become candidate holes, and each hole is attached to the first outer polygon
(in ring completion order) whose outer ring contains it: the feature's polygon
list equals the spec-side `specPolygons` of the (optionally smoothed) sweep
rings, and `attachHole` picks exactly the first containing polygon. -/
theorem c7_area_hole_classification (c : ContourBuilder) (cf : Ring → Ring → ℤ)
    (values : List ℚ) (t : ℚ) (iso b2 : IsoRingBuilder) (rings : List Ring)
    (feat : Feature) (iso2 : IsoRingBuilder)
    (hc : compute iso values t = .ok (b2, rings))
    (h : contour c cf values t iso = .ok (feat, iso2)) :
    feat.value = t ∧ iso2 = b2 ∧
    feat.polygons = specPolygons cf (rings.map
      (fun r => if c.smooth then smoooth_linear c.dx c.dy r values t else r)) ∧
    (∀ (pre : List (List Ring)) (poly : List Ring) (post : List (List Ring)) (hole : Ring),
      (∀ q ∈ pre, cf (q.headD []) hole = -1) → cf (poly.headD []) hole ≠ -1 →
      attachHole cf (pre ++ poly :: post) hole = pre ++ (poly ++ [hole]) :: post) := by
  obtain ⟨h1, h2, h3⟩ := contour_polygons_eq c cf values t iso b2 rings feat iso2 hc h
  exact ⟨h1, h2, h3,
    fun pre poly post hole h4 h5 => attachHole_first cf hole pre poly post h4 h5⟩

/-- Witness for C7: the 2-by-2 grid `[1,0,0,0]` at threshold `1/2` yields one
positively-oriented ring, which becomes the single polygon of the feature; with
an always-contained containment test, `attachHole` attaches a hole to the first
polygon. -/
theorem c7_witness :
    ((⟨(1 : ℚ)/2,
        [[[((1 : ℚ), (1 : ℚ)/2), (1/2, 0), (0, 1/2), (1/2, 1), (1, 1/2)]]]⟩ : Feature).value
      = 1/2) ∧
    ((⟨[], [], [], 1, 2, 2, false⟩ : IsoRingBuilder) = ⟨[], [], [], 1, 2, 2, false⟩) ∧
    ((⟨(1 : ℚ)/2,
        [[[((1 : ℚ), (1 : ℚ)/2), (1/2, 0), (0, 1/2), (1/2, 1), (1, 1/2)]]]⟩ : Feature).polygons
      = specPolygons (fun _ _ => 1)
        (([[((1 : ℚ), (1 : ℚ)/2), (1/2, 0), (0, 1/2), (1/2, 1), (1, 1/2)]] : List Ring).map
          (fun r => if (⟨2, 2, false⟩ : ContourBuilder).smooth
            then smoooth_linear 2 2 r [1, 0, 0, 0] (1/2) else r))) ∧
    attachHole (fun _ _ => 1)
        ([] ++ [[((0 : ℚ), (0 : ℚ))]] :: []) [((1 : ℚ), (1 : ℚ))]
      = [] ++ ([[((0 : ℚ), (0 : ℚ))]] ++ [[((1 : ℚ), (1 : ℚ))]]) :: [] := by
  have h := c7_area_hole_classification ⟨2, 2, false⟩ (fun _ _ => 1) [1, 0, 0, 0] (1/2)
    (IsoRingBuilder.new 2 2) ⟨[], [], [], 1, 2, 2, false⟩
    [[((1 : ℚ), (1 : ℚ)/2), (1/2, 0), (0, 1/2), (1/2, 1), (1, 1/2)]]
    ⟨(1 : ℚ)/2, [[[((1 : ℚ), (1 : ℚ)/2), (1/2, 0), (0, 1/2), (1/2, 1), (1, 1/2)]]]⟩
    ⟨[], [], [], 1, 2, 2, false⟩
    (by with_unfolding_all rfl) (by with_unfolding_all rfl)
  exact ⟨h.1, h.2.1, h.2.2.1,
    h.2.2.2 [] [[((0 : ℚ), (0 : ℚ))]] [] [((1 : ℚ), (1 : ℚ))]
      (fun q hq => absurd hq (List.not_mem_nil q)) (by decide)⟩

/-- Claim C10: a hole-oriented ring that no outer polygon contains is silently
discarded: `contour` still succeeds, and the ring appears in no polygon of the
output (in particular in no polygon's hole list). -/
theorem c10_unmatched_hole_dropped (c : ContourBuilder) (cf : Ring → Ring → ℤ)
    (values : List ℚ) (t : ℚ) (iso b2 : IsoRingBuilder) (rings : List Ring) (h0 : Ring)
    (hc : compute iso values t = .ok (b2, rings))
    (hall : ∀ o, cf o h0 = -1) (harea : ¬ area h0 > 0) :
    ∃ feat iso2, contour c cf values t iso = .ok (feat, iso2) ∧
      ∀ poly ∈ feat.polygons, h0 ∉ poly := by
  obtain ⟨feat, iso2, hok⟩ := contour_ok c cf values t iso b2 rings hc
  refine ⟨feat, iso2, hok, ?_⟩
  obtain ⟨-, -, h3⟩ := contour_polygons_eq c cf values t iso b2 rings feat iso2 hc hok
  rw [h3, specPolygons]
  refine foldl_preserve (attachHole cf) (fun polys => ∀ poly ∈ polys, h0 ∉ poly)
    (fun polys hole hP => attachHole_not_mem cf h0 hole hall polys hP) _ _ ?_
  intro poly hpoly
  obtain ⟨r, hr, hrp⟩ := List.mem_map.mp hpoly
  intro hmem
  rw [← hrp] at hmem
  have hr0 : h0 = r := List.mem_singleton.mp hmem
  have hpos : area r > 0 := of_decide_eq_true (List.mem_filter.mp hr).2
  rw [← hr0] at hpos
  exact harea hpos

/-- Witness for C10: on the 3-by-3 grid with a single low centre sample, the
inner (negative-area) ring is contained in no polygon when the containment
test always answers "not contained", and `contour` still succeeds. -/
theorem c10_witness :
    ∃ feat iso2,
      contour ⟨3, 3, false⟩ (fun _ _ => -1) [1, 1, 1, 1, 0, 1, 1, 1, 1] (1/2)
          (IsoRingBuilder.new 3 3) = .ok (feat, iso2) ∧
      ∀ poly ∈ feat.polygons,
        ([((3 : ℚ)/2, (2 : ℚ)), (1, 3/2), (3/2, 1), (2, 3/2), (3/2, 2)] : Ring) ∉ poly :=
  c10_unmatched_hole_dropped ⟨3, 3, false⟩ (fun _ _ => -1) [1, 1, 1, 1, 0, 1, 1, 1, 1]
    (1/2) (IsoRingBuilder.new 3 3) ⟨[], [], [], 2, 3, 3, false⟩
    [[((3 : ℚ)/2, (2 : ℚ)), (1, 3/2), (3/2, 1), (2, 3/2), (3/2, 2)],
     [(3, 5/2), (3, 3/2), (3, 1/2), (5/2, 0), (3/2, 0), (1/2, 0),
      (0, 1/2), (0, 3/2), (0, 5/2), (1/2, 3), (3/2, 3), (5/2, 3), (3, 5/2)]]
    [((3 : ℚ)/2, (2 : ℚ)), (1, 3/2), (3/2, 1), (2, 3/2), (3/2, 2)]
    (by with_unfolding_all rfl) (fun o => rfl)
    (of_decide_eq_true (by with_unfolding_all rfl))

/-- The collapsed i32 sweep at `dx = 2^31 + 5`, `dy = 1`: `dx as i32` wraps to
`-2147483643`, every `while x < dx - 1` loop body is skipped and the final
stitches stay at column 0, so the sweep reads only `values[0]` and — on any
all-high slice — emits the single 1-by-1 diamond ring, whose interior point
`(1, 1/2)` it would never emit on the untruncated schedule. -/
theorem computeI32_collapsed (vs : List ℚ) :
    computeI32 (IsoRingBuilder.new (2 ^ 31 + 5) 1) ((1 : ℚ) :: vs) (1/2)
      = .ok (⟨[], [], [], 1, 2 ^ 31 + 5, 1, false⟩,
          [[((1 : ℚ), (1 : ℚ)/2), (1/2, 0), (0, 1/2), (1/2, 1), (1, 1/2)]]) := by
  with_unfolding_all rfl

/-- Claim C4: refuted as a code bug.  `compute` casts `self.dx` to i32
(src/contour.rs line 230); at `dx = 2^31 + 5`, `dy = 1` with `dx * dy`
all-high samples (a dimension-valid input) the wrapped sweep collapses to a
1-wide schedule and emits the ring containing the interior point `(1, 1/2)`.
At that point the x-interpolation guards of `smoooth_linear` all pass, yet the
two bracketing samples `v1 = values[1]` and `v0 = values[0]` are equal, so the
guard-free update `x + (value - v0) / (v1 - v0) - 0.5` divides by zero — in
f64 the coordinate becomes `-inf` — and the point is not left at its raw
position (the exact-arithmetic model moves it to `(1/2, 1/2)`). -/
theorem c4_i32_wrap_bug :
    (computeI32 (IsoRingBuilder.new (2 ^ 31 + 5) 1)
        (List.replicate (2 ^ 31 + 5) (1 : ℚ)) (1/2)
      = .ok (⟨[], [], [], 1, 2 ^ 31 + 5, 1, false⟩,
          [[((1 : ℚ), (1 : ℚ)/2), (1/2, 0), (0, 1/2), (1/2, 1), (1, 1/2)]])) ∧
    (List.replicate (2 ^ 31 + 5) (1 : ℚ)).length = (2 ^ 31 + 5) * 1 ∧
    (0 < (1 : ℚ) ∧ (1 : ℚ) < ((2 ^ 31 + 5 : ℕ) : ℚ) ∧
      |(asUsize (1 : ℚ) : ℚ) - 1| < EPS) ∧
    (List.replicate (2 ^ 31 + 5) (1 : ℚ)).getD
        (asUsize ((1 : ℚ)/2) * (2 ^ 31 + 5) + asUsize (1 : ℚ)) 0 -
      (List.replicate (2 ^ 31 + 5) (1 : ℚ)).getD
        (asUsize ((1 : ℚ)/2) * (2 ^ 31 + 5) + asUsize (1 : ℚ) - 1) 0 = 0 ∧
    smoothPt (2 ^ 31 + 5) 1 (List.replicate (2 ^ 31 + 5) (1 : ℚ)) (1/2)
        ((1 : ℚ), (1 : ℚ)/2)
      ≠ ((1 : ℚ), (1 : ℚ)/2) := by
  have hrep : List.replicate (2 ^ 31 + 5) (1 : ℚ) = (1 : ℚ) :: List.replicate (2 ^ 31 + 4) 1 := by
    rw [show (2 ^ 31 + 5 : ℕ) = (2 ^ 31 + 4) + 1 from by norm_num, List.replicate_succ]
  have hx : 0 < (1 : ℚ) ∧ (1 : ℚ) < ((2 ^ 31 + 5 : ℕ) : ℚ) ∧
      |(asUsize (1 : ℚ) : ℚ) - 1| < EPS := by
    refine ⟨by norm_num, by exact_mod_cast (by norm_num : (1 : ℕ) < 2 ^ 31 + 5), ?_⟩
    rw [show asUsize (1 : ℚ) = 1 from by with_unfolding_all rfl, EPS]
    norm_num
  have hsm0 : ∀ V : List ℚ, V.length = 2 ^ 31 + 5 →
      V.getD (asUsize ((1 : ℚ)/2) * (2 ^ 31 + 5) + asUsize (1 : ℚ)) 0 = 1 →
      V.getD (asUsize ((1 : ℚ)/2) * (2 ^ 31 + 5) + asUsize (1 : ℚ) - 1) 0 = 1 →
      smoothPt (2 ^ 31 + 5) 1 V (1/2) ((1 : ℚ), (1 : ℚ)/2) = ((1 : ℚ)/2, (1 : ℚ)/2) := by
    intro V hVl hg1 hg0
    rw [smoothPt]
    dsimp only
    rw [hVl]
    have hc1 : asUsize ((1 : ℚ)/2) * (2 ^ 31 + 5) + asUsize (1 : ℚ) < 2 ^ 31 + 5 :=
      of_decide_eq_true (by with_unfolding_all rfl)
    have hy : ¬ (0 < (1 : ℚ)/2 ∧ (1 : ℚ)/2 < ((1 : ℕ) : ℚ) ∧
        |(asUsize ((1 : ℚ)/2) : ℚ) - (1 : ℚ)/2| < EPS) :=
      of_decide_eq_true (by with_unfolding_all rfl)
    rw [if_pos hc1, if_pos hx, if_neg hy, hg1, hg0]
    norm_num
  have hsm : smoothPt (2 ^ 31 + 5) 1 (List.replicate (2 ^ 31 + 5) (1 : ℚ)) (1/2)
      ((1 : ℚ), (1 : ℚ)/2) = ((1 : ℚ)/2, (1 : ℚ)/2) :=
    hsm0 (List.replicate (2 ^ 31 + 5) (1 : ℚ)) (List.length_replicate _ _)
      (by with_unfolding_all rfl) (by with_unfolding_all rfl)
  refine ⟨?_, ?_, hx, by with_unfolding_all rfl, ?_⟩
  · rw [hrep]
    exact computeI32_collapsed (List.replicate (2 ^ 31 + 4) 1)
  · rw [List.length_replicate]
    norm_num
  · intro hcontra
    have h2 := hsm.symm.trans hcontra
    exact (of_decide_eq_true (by with_unfolding_all rfl) :
      ((1 : ℚ)/2, (1 : ℚ)/2) ≠ ((1 : ℚ), (1 : ℚ)/2)) h2

/-- Claim C5: refuted as a code bug.  The dimension check of
`ContourBuilder::contours` (src/contour.rs line 108) compares
`values.len() as u32` against the wrapping u32 product `self.dx * self.dy`.
With `dx = dy = 65536` and an empty slice the product wraps to 0 (a debug
build panics on the multiply), the check passes and the sweep panics reading
`values[0]` — modelled as `outOfBounds` — instead of returning the dimension
error; with `dx = dy = 1` and `2^32 + 1` samples the truncated length passes
the check and the extra samples are silently ignored.  So a sample count
different from `dx * dy` guarantees neither a `BadDimension` error nor the
absence of a panic or of silent truncation. -/
theorem c5_u32_check_bug :
    (([] : List ℚ).length ≠ 65536 * 65536 ∧
      contours ⟨65536, 65536, false⟩ (fun _ _ => -1) [] [1/2] = .error .outOfBounds) ∧
    ((List.replicate (2 ^ 32 + 1) (1 : ℚ)).length ≠ 1 * 1 ∧
      contours ⟨1, 1, false⟩ (fun _ _ => -1) (List.replicate (2 ^ 32 + 1) 1) [] = .ok []) := by
  refine ⟨⟨by norm_num, by with_unfolding_all rfl⟩, ?_, ?_⟩
  · rw [List.length_replicate]
    norm_num
  · have hc : ¬ ((List.replicate (2 ^ 32 + 1) (1 : ℚ)).length % 2 ^ 32 ≠
        ((⟨1, 1, false⟩ : ContourBuilder).dx * (⟨1, 1, false⟩ : ContourBuilder).dy) % 2 ^ 32) := by
      rw [List.length_replicate]
      norm_num
    rw [contours, if_neg hc]
    rfl


end ContourRs
